import Mathlib

/-!
# Verification of the transfer-queue engine and content store

A shallow embedding, in Lean 4, of the core of a large-object
synchronization client:

* the content store's verified download write (`bufferDownloadedFile`,
  package `lfs`): stream to a temp file, hash while copying, verify the
  hash against the object id, then atomically rename into place;
* the transfer queue (`TransferQueue`, package `tq`): batching,
  negotiation, dispatch through a transfer adapter, bounded retries, and
  completion accounting through a wait-group.

Go maps are embedded as association lists, goroutine/channel pipelines as
sequential state-passing functions (every channel in the source carries a
finite stream that is fully drained before the observations the theorems
speak about), and the external collaborators (the batch API, the transfer
adapter, the adapter's `Begin`) as explicit oracles.  A Go `panic` is
embedded as `Option.none`.
-/

/-! ## Association-list helpers (embedding of Go maps) -/

/-- Lookup of the first binding of key `k` (Go `m[k]` with `ok`). -/
def alookup (k : String) : List (String × α) → Option α
  | [] => none
  | (k', v) :: rest => if k' = k then some v else alookup k rest

/-- Update the binding of key `k`, appending it if absent (Go `m[k] = v`). -/
def aupdate (k : String) (v : α) : List (String × α) → List (String × α)
  | [] => [(k, v)]
  | (k', v') :: rest => if k' = k then (k, v) :: rest else (k', v') :: aupdate k v rest

/-- Remove the binding of key `k` (Go `delete(m, k)`; also `os.Remove`). -/
def aremove (k : String) : List (String × α) → List (String × α)
  | [] => []
  | (k', v') :: rest => if k' = k then rest else (k', v') :: aremove k rest

theorem alookup_aupdate_ne (k k' : String) (v : α) (m : List (String × α)) (h : k ≠ k') :
    alookup k' (aupdate k v m) = alookup k' m := by
  induction m with
  | nil => simp [aupdate, alookup, h]
  | cons hd tl ih =>
    obtain ⟨k₀, v₀⟩ := hd
    by_cases hk : k₀ = k
    · subst hk
      simp [aupdate, alookup, h]
    · simp [aupdate, alookup, hk]
      by_cases hk' : k₀ = k'
      · simp [hk']
      · simp [hk', ih]

theorem alookup_aupdate_self (k : String) (v : α) (m : List (String × α)) :
    alookup k (aupdate k v m) = some v := by
  induction m with
  | nil => simp [aupdate, alookup]
  | cons hd tl ih =>
    obtain ⟨k₀, v₀⟩ := hd
    by_cases hk : k₀ = k
    · subst hk; simp [aupdate, alookup]
    · simp [aupdate, alookup, hk, ih]

theorem alookup_aremove_ne (k k' : String) (m : List (String × α)) (h : k ≠ k') :
    alookup k' (aremove k m) = alookup k' m := by
  induction m with
  | nil => simp [aremove, alookup]
  | cons hd tl ih =>
    obtain ⟨k₀, v₀⟩ := hd
    by_cases hk : k₀ = k
    · subst hk
      simp [aremove, alookup, h]
    · simp [aremove, alookup, hk, ih]

namespace Store

/-! ## The content store's verified write

Embeds `bufferDownloadedFile` (package `lfs`): the filesystem is an
association list from path to byte content, the hash function is a
parameter (the source uses SHA-256 through `tools.NewHashingReader`), and
the fallible I/O steps (temp-file creation, the copy, `Close`, `Stat`,
`Chmod`, `Rename`) are oracles in `IOEnv`.

The Go source registers, right after creating the temp file,

    defer func() {
        if err != nil { _ = os.Remove(f.Name()) }
    }()

which reads the *function-scoped* variable `err` at return time.  Several
later `return` statements use freshly shadowed `err` variables (`if err :=
f.Close(); ...`, `return fmt.Errorf(...)` after the hash check, `if err :=
os.Chmod...`, `if err := os.Rename...`), so the deferred cleanup sees the
value last assigned to the *outer* `err`, not the error being returned.
The embedding tracks that outer variable explicitly (`errVar`). -/

/-- Byte content of a file / of the downloaded stream. -/
abbrev Content := List Nat

/-- The filesystem: paths mapped to file contents. -/
abbrev FS := List (String × Content)

/-- Outcomes of the fallible I/O steps of one `bufferDownloadedFile` run. -/
structure IOEnv where
  /-- `ioutil.TempFile` fails. -/
  tempFileErr : Bool
  /-- The bytes the reader yields (and the copy writes) before EOF or error. -/
  readData : Content
  /-- Error returned by `tools.CopyWithCallback` after `readData` was written. -/
  readErr : Option String
  /-- Error returned by `f.Close()`. -/
  closeErr : Option String
  /-- `os.Stat(filename)` fails with an error other than not-exists. -/
  statFails : Bool
  /-- `os.Chmod` on the temp file fails. -/
  chmodErr : Bool
  /-- `os.Rename` fails. -/
  renameErr : Bool

/-- Characters of the last slash-separated component (accumulator reversed). -/
def baseChars : List Char → List Char → List Char
  | acc, [] => acc.reverse
  | acc, c :: cs => if c = '/' then baseChars [] cs else baseChars (c :: acc) cs

/-- `filepath.Base`: the last component of a slash-separated path. -/
def baseName (s : String) : String := String.mk (baseChars [] s.data)

/-- The deferred cleanup registered after the temp file is created:
removes the temp file only when the function-scoped `err` variable is
non-nil at return time. -/
def deferCleanup (errVar : Option String) (tmpName : String) (fs : FS) : FS :=
  match errVar with
  | some _ => aremove tmpName fs
  | none => fs

/-- Result of one run: the Go return value (`some msg` = error) and the
final filesystem. -/
structure RunResult where
  result : Option String
  fs : FS

/-- Embedding of `bufferDownloadedFile(filename, reader, size, cb)`.
`hash` is the streaming hasher, `tmpName` the name `ioutil.TempFile`
picks in the temp dir, `size` the declared expected size (the source
passes it to `CopyWithCallback` solely for the progress callback). -/
def bufferDownloadedFile (hash : Content → String) (env : IOEnv)
    (tmpName filename : String) (size : Int) (fs : FS) : RunResult :=
  -- oid := filepath.Base(filename)
  let oid := baseName filename
  if env.tempFileErr then
    -- return fmt.Errorf("cannot create temp file: %v", err); no defer yet
    ⟨some "cannot create temp file", fs⟩
  else
    -- the temp file now exists (empty); the cleanup defer is registered
    let fs₁ := aupdate tmpName [] fs
    -- written, err := tools.CopyWithCallback(f, hasher, size, cb)
    -- (the bytes read so far are written to the temp file either way;
    --  `size` only feeds the progress callback)
    let _ := size
    let fs₂ := aupdate tmpName env.readData fs₁
    match env.readErr with
    | some e =>
      -- outer err is the copy error: the deferred cleanup fires
      ⟨some ("cannot write data to tempfile: " ++ e), deferCleanup (some e) tmpName fs₂⟩
    | none =>
      match env.closeErr with
      | some e =>
        -- `if err := f.Close(); err != nil` shadows err: outer err is nil
        ⟨some ("cannot close tempfile: " ++ e), deferCleanup none tmpName fs₂⟩
      | none =>
        if hash env.readData ≠ oid then
          -- `return fmt.Errorf("Expected OID %s, got %s ...")` does not
          -- assign the outer err: the deferred cleanup sees nil
          ⟨some ("Expected OID " ++ oid ++ ", got " ++ hash env.readData),
            deferCleanup none tmpName fs₂⟩
        else
          if env.statFails then
            -- `info, err := os.Stat(filename)` assigns the outer err
            ⟨some "stat error", deferCleanup (some "stat error") tmpName fs₂⟩
          else
            -- on stat success errVar is nil; when the destination does not
            -- exist errVar holds the not-exists error (the code continues)
            let origExists := (alookup filename fs₂).isSome
            let errVar : Option String := if origExists then none else some "not exist"
            if origExists && env.chmodErr then
              -- shadowed err again: outer err is nil here
              ⟨some "cannot set filemode on tempfile", deferCleanup none tmpName fs₂⟩
            else
              if env.renameErr then
                -- shadowed err: outer err is whatever Stat left
                ⟨some "cannot replace with tempfile", deferCleanup errVar tmpName fs₂⟩
              else
                -- os.Rename(name, filename): atomic move temp → canonical
                let fs₃ := aupdate filename env.readData (aremove tmpName fs₂)
                ⟨none, deferCleanup errVar tmpName fs₃⟩

theorem alookup_deferCleanup (ev : Option String) (tmp fn : String) (fs : FS)
    (h : tmp ≠ fn) : alookup fn (deferCleanup ev tmp fs) = alookup fn fs := by
  cases ev <;> simp [deferCleanup, alookup_aremove_ne _ _ _ h]

end Store

/-- **C5.** Any run of the verified write that returns an error leaves the
canonical destination path untouched, and the canonical path is created or
replaced only by the final atomic rename on the success path (after which
it holds exactly the downloaded bytes).  The temp file lives in a separate
scratch directory, so its name differs from the canonical path. -/
theorem bufferDownloadedFile_frame
    (hashF : Store.Content → String) (env : Store.IOEnv) (tmp fn : String)
    (sz : Int) (fs : Store.FS) (hne : tmp ≠ fn) :
    (∀ e, (Store.bufferDownloadedFile hashF env tmp fn sz fs).result = some e →
        alookup fn (Store.bufferDownloadedFile hashF env tmp fn sz fs).fs = alookup fn fs)
      ∧ ((Store.bufferDownloadedFile hashF env tmp fn sz fs).result = none →
        alookup fn (Store.bufferDownloadedFile hashF env tmp fn sz fs).fs
          = some env.readData) := by
  have h2 : alookup fn (aupdate tmp env.readData (aupdate tmp ([] : Store.Content) fs))
      = alookup fn fs := by
    rw [alookup_aupdate_ne _ _ _ _ hne, alookup_aupdate_ne _ _ _ _ hne]
  unfold Store.bufferDownloadedFile
  cases htf : env.tempFileErr with
  | true => simp
  | false =>
    cases hre : env.readErr with
    | some e => simp [Store.alookup_deferCleanup _ _ _ _ hne, h2]
    | none =>
      cases hce : env.closeErr with
      | some e => simp [Store.alookup_deferCleanup _ _ _ _ hne, h2]
      | none =>
        by_cases hh : hashF env.readData ≠ Store.baseName fn
        · simp [hh, Store.alookup_deferCleanup _ _ _ _ hne, h2]
        · by_cases hst : env.statFails
          · simp [hh, hst, Store.alookup_deferCleanup _ _ _ _ hne, h2]
          · by_cases horig : (alookup fn fs).isSome
            · by_cases hch : env.chmodErr
              · simp [hh, hst, horig, hch, h2, Store.alookup_deferCleanup _ _ _ _ hne]
              · by_cases hrn : env.renameErr
                · simp [hh, hst, horig, hch, hrn, h2,
                    Store.alookup_deferCleanup _ _ _ _ hne]
                · simp [hh, hst, horig, hch, hrn, h2,
                    Store.alookup_deferCleanup _ _ _ _ hne, alookup_aupdate_self]
            · by_cases hrn : env.renameErr
              · simp [hh, hst, horig, hrn, h2, Store.alookup_deferCleanup _ _ _ _ hne]
              · simp [hh, hst, horig, hrn, h2,
                  Store.alookup_deferCleanup _ _ _ _ hne, alookup_aupdate_self]

/-- **C3 (code defect).** On a hash mismatch the verified write returns the
hash-mismatch error, but the temp file is *not* removed: the deferred
cleanup tests the function-scoped `err` variable, which is still nil after
the successful copy, because `return fmt.Errorf("Expected OID ...")` does
not assign it.  Evaluated at a concrete failing input: content `[1,2,3]`
hashing to `"deadbeef"`, expected oid `"aabbccdd"`; the run errors yet the
temp file is left on disk with the downloaded bytes. -/
theorem bufferDownloadedFile_hashMismatch_leaves_tempfile :
    (Store.bufferDownloadedFile (fun _ => "deadbeef")
        ⟨false, [1, 2, 3], none, none, false, false, false⟩
        "tmp/obj-1" "aa/bb/aabbccdd" 3 []).result
      = some ("Expected OID " ++ "aabbccdd" ++ ", got " ++ "deadbeef")
    ∧ alookup "tmp/obj-1" (Store.bufferDownloadedFile (fun _ => "deadbeef")
        ⟨false, [1, 2, 3], none, none, false, false, false⟩
        "tmp/obj-1" "aa/bb/aabbccdd" 3 []).fs = some [1, 2, 3] := by
  constructor <;> rfl

/-- **C4 counterexample.** A run in which the number of bytes written (3)
differs from the declared expected size (999) but the hash verifies: the
operation succeeds (returns nil) instead of failing with a size-mismatch
error — `bufferDownloadedFile` never compares the byte count with the
declared size (`size` feeds only the progress callback). -/
theorem bufferDownloadedFile_sizeMismatch_no_error_cex :
    ((3 : Int) ≠ 999)
    ∧ (Store.bufferDownloadedFile (fun _ => "aabbccdd")
        ⟨false, [1, 2, 3], none, none, false, false, false⟩
        "tmp/obj-1" "aa/bb/aabbccdd" 999 []).result = none :=
  ⟨by decide, rfl⟩

/-- **C4 (amended).** The verified write performs no byte-count check:
whenever the stream is written without I/O error and the computed hash
equals the oid, the operation succeeds regardless of any mismatch between
the actual byte count and the declared expected size, which is used only
for progress reporting. -/
theorem bufferDownloadedFile_no_size_verification
    (hashF : Store.Content → String) (env : Store.IOEnv) (tmp fn : String)
    (sz : Int) (fs : Store.FS)
    (h1 : env.tempFileErr = false) (h2 : env.readErr = none)
    (h3 : env.closeErr = none) (h4 : env.statFails = false)
    (h5 : env.chmodErr = false) (h6 : env.renameErr = false)
    (h7 : hashF env.readData = Store.baseName fn)
    (_h8 : (env.readData.length : Int) ≠ sz) :
    (Store.bufferDownloadedFile hashF env tmp fn sz fs).result = none := by
  unfold Store.bufferDownloadedFile
  simp [h1, h2, h3, h4, h5, h6, h7]

/-- Witness for `bufferDownloadedFile_no_size_verification`: 2 bytes
written against a declared size of 7. -/
theorem bufferDownloadedFile_no_size_verification_witness :
    (Store.bufferDownloadedFile (fun _ => "bb")
        ⟨false, [9, 9], none, none, false, false, false⟩
        "tmp/obj-2" "bb" 7 []).result = none :=
  bufferDownloadedFile_no_size_verification (fun _ => "bb")
    ⟨false, [9, 9], none, none, false, false, false⟩
    "tmp/obj-2" "bb" 7 [] rfl rfl rfl rfl rfl rfl (by decide) (by decide)

/-- Witness for `bufferDownloadedFile_frame` at a concrete run: a download
whose hash verifies, into a store where the canonical path was absent. -/
theorem bufferDownloadedFile_frame_witness :
    ("tmp/obj-1" : String) ≠ "aa" ∧
      ((Store.bufferDownloadedFile (fun _ => "aa")
          ⟨false, [1, 2], none, none, false, false, false⟩
          "tmp/obj-1" "aa" 2 []).result = none →
        alookup "aa" (Store.bufferDownloadedFile (fun _ => "aa")
          ⟨false, [1, 2], none, none, false, false, false⟩
          "tmp/obj-1" "aa" 2 []).fs = some [1, 2]) :=
  ⟨by decide, (bufferDownloadedFile_frame (fun _ => "aa")
    ⟨false, [1, 2], none, none, false, false, false⟩
    "tmp/obj-1" "aa" 2 [] (by decide)).2⟩

namespace Tq

/-! ## The transfer queue

Embeds the `tq` package: `retryCounter`, `Batch`, and `TransferQueue`
(`Add`, `collectBatches`, `enqueueAndCollectRetriesFor`, `addToAdapter`,
`handleTransferResult`, `Watch`, `Wait`).  The batch API, the transfer
adapter and `adapter.Begin` are oracles; goroutines and channels are
sequentialized (every channel carries a finite, fully drained stream).
Ghost logs record the observable events: `closed` logs every
`wait.Done()` with the oid being closed out and its outcome, `watched`
the oids sent on the watcher channels, `attemptLog` every transfer handed
to the adapter, `apiCalls` the request list of every `api.Batch` call. -/

/-- A transfer error together with its classification by
`errors.IsRetriableError` (the `retriableError` marker interface, see the
`lfs` error package's `Retriable()` contract). -/
structure Err where
  retriable : Bool
  msg : String
deriving DecidableEq

/-- One object to move (interface `Transferable`): content hash `Oid`,
declared byte size, human-readable name. -/
structure Transferable where
  oid : String
  size : Int
  name : String
deriving DecidableEq

/-- A negotiation response object as the queue reads it
(`api.ObjectResource`): oid, server-confirmed size, optional per-object
error (`o.Error`), and whether an action for the requested transfer kind
is present (`o.Rel(q.transferKind())`). -/
structure ObjRes where
  oid : String
  size : Int
  err : Option Err
  hasAction : Bool
deriving DecidableEq

/-- Result of one batch negotiation call (`api.Batch`): a single error for
the whole batch, or a list of per-object resources. -/
inductive NegResult where
  | fail (e : Err)
  | ok (objs : List ObjRes)

/-- Terminal outcome classes for one object. -/
inductive Outcome where
  | succeeded
  | skipped
  | failedTerminal
deriving DecidableEq

/-- The environment, round by round: the batch API, the adapter's
per-object transfer attempts, and `adapter.Begin`. -/
structure Oracles where
  neg : Nat → List (String × Int) → NegResult
  xfer : Nat → String → Option Err
  beginErr : Nat → Option Err

/-- Observable state of a `TransferQueue` (fields documented above). -/
structure QState where
  transferables : List (String × Transferable)
  retryCount : List (String × Nat)
  waitCount : Int
  errors : List Err
  watched : List String
  skippedBytes : List Int
  closed : List (String × Outcome)
  attemptLog : List String
  apiCalls : List (List (String × Int))
  adapterBegun : Bool
  watchersClosed : Bool

/-- The freshly constructed queue (`NewTransferQueue`). -/
def initState : QState :=
  { transferables := [], retryCount := [], waitCount := 0, errors := [],
    watched := [], skippedBytes := [], closed := [], attemptLog := [],
    apiCalls := [], adapterBegun := false, watchersClosed := false }

/-- `retryCounter.CountFor`. -/
def rcCountFor (rc : List (String × Nat)) (oid : String) : Nat :=
  (alookup oid rc).getD 0

/-- `retryCounter.Increment`. -/
def rcIncrement (rc : List (String × Nat)) (oid : String) : List (String × Nat) :=
  aupdate oid (rcCountFor rc oid + 1) rc

/-- `retryCounter.CanRetry`: the current count, and whether it is below
the configured maximum. -/
def rcCanRetry (maxRetries : Nat) (rc : List (String × Nat)) (oid : String) : Nat × Bool :=
  (rcCountFor rc oid, rcCountFor rc oid < maxRetries)

/-- `newRetryCounter`'s coercion of the configured maximum: values below
one fall back to one. -/
def normalizeMaxRetries (n : Int) : Nat := if n < 1 then 1 else n.toNat

/-- `TransferQueue.canRetry`, via `errors.IsRetriableError`. -/
def canRetry (e : Err) : Bool := e.retriable

/-- `TransferQueue.canRetryObject`. -/
def canRetryObject (maxRetries : Nat) (rc : List (String × Nat))
    (oid : String) (e : Err) : Bool :=
  (rcCanRetry maxRetries rc oid).2 && canRetry e

/-- `TransferQueue.Add`: a new oid registers the Transferable and adds one
to the wait-group; a duplicate oid is dropped.  Returns the updated state
and whether the item was sent on the `incoming` channel. -/
def addOne (st : QState) (t : Transferable) : QState × Bool :=
  match alookup t.oid st.transferables with
  | some _ => (st, false)
  | none =>
    ({ st with transferables := st.transferables ++ [(t.oid, t)],
               waitCount := st.waitCount + 1 }, true)

/-- Repeated `Add` calls: the pre-run state and the contents of the
`incoming` channel, in order. -/
def addAll (st : QState) : List Transferable → QState × List Transferable
  | [] => (st, [])
  | t :: ts =>
    match addOne st t with
    | (st', true) =>
      let (st'', rest) := addAll st' ts
      (st'', t :: rest)
    | (st', false) => addAll st' ts

/-- `Batch.ApiObjects`: the `{oid, size}` pairs sent to the batch API. -/
def apiObjects (b : List Transferable) : List (String × Int) :=
  b.map fun t => (t.oid, t.size)

/-- `Batch.IsFull`. -/
def batchIsFull (b : List Transferable) (maxSize : Nat) : Bool :=
  maxSize ≤ b.length

/-- Insertion into a size-descending list: the effect of
`sort.Sort(sort.Reverse(batch))` with `Batch.Less` comparing sizes. -/
def insertBySize (t : Transferable) : List Transferable → List Transferable
  | [] => [t]
  | u :: rest => if u.size ≤ t.size then t :: u :: rest else u :: insertBySize t rest

/-- The size-descending sort performed on the batch before every
negotiation call. -/
def sortBySizeDesc (b : List Transferable) : List Transferable :=
  b.foldr insertBySize []

/-- The per-object loop over a successful negotiation response (body of
`enqueueAndCollectRetriesFor` after `api.Batch` returned): collects the
transfers to hand to the adapter, closes out per-object errors and objects
needing no transfer.  When an action is present but the oid is absent from
`transferables`, the source calls `t.Size()` on the nil interface obtained
from the failed map lookup — a Go nil-pointer panic, embedded as `none`. -/
def processObjs (tm : List (String × Transferable)) :
    List ObjRes → QState → Option (List (Transferable × ObjRes) × QState)
  | [], st => some ([], st)
  | o :: rest, st =>
    match o.err with
    | some e =>
      -- q.errorc <- errors.Wrapf(o.Error, ...); q.Skip(o.Size); q.wait.Done()
      processObjs tm rest
        { st with errors := st.errors ++ [e],
                  skippedBytes := st.skippedBytes ++ [o.size],
                  closed := st.closed ++ [(o.oid, Outcome.failedTerminal)],
                  waitCount := st.waitCount - 1 }
    | none =>
      if o.hasAction then
        match alookup o.oid tm with
        | some t =>
          -- t.SetObject(o); toTransfer = append(toTransfer, NewTransfer(...))
          match processObjs tm rest st with
          | some (ts, st') => some ((t, o) :: ts, st')
          | none => none
        | none => none
      else
        -- q.Skip(o.Size); q.wait.Done()
        processObjs tm rest
          { st with skippedBytes := st.skippedBytes ++ [o.size],
                    closed := st.closed ++ [(o.oid, Outcome.skipped)],
                    waitCount := st.waitCount - 1 }

/-- The adapter performing each transfer and `handleTransferResult`
observing each result: a success notifies the watchers and closes out; a
retriable failure within budget is sent on the `retries` channel; any
other failure is reported and closed out. -/
def dispatch (O : Oracles) (maxRetries round : Nat) (tm : List (String × Transferable)) :
    List (Transferable × ObjRes) → QState → List Transferable × QState
  | [], st => ([], st)
  | (_, o) :: rest, st =>
    let st := { st with attemptLog := st.attemptLog ++ [o.oid] }
    match O.xfer round o.oid with
    | some e =>
      if canRetryObject maxRetries st.retryCount o.oid e then
        match alookup o.oid tm with
        | some t' =>
          let (rs, st') := dispatch O maxRetries round tm rest st
          (t' :: rs, st')
        | none =>
          -- q.errorc <- res.Error (and no wait.Done)
          dispatch O maxRetries round tm rest { st with errors := st.errors ++ [e] }
      else
        -- q.errorc <- res.Error; q.wait.Done()
        dispatch O maxRetries round tm rest
          { st with errors := st.errors ++ [e],
                    closed := st.closed ++ [(o.oid, Outcome.failedTerminal)],
                    waitCount := st.waitCount - 1 }
    | none =>
      -- watchers <- oid; q.meter.FinishTransfer(...); q.wait.Done()
      dispatch O maxRetries round tm rest
        { st with watched := st.watched ++ [o.oid],
                  closed := st.closed ++ [(o.oid, Outcome.succeeded)],
                  waitCount := st.waitCount - 1 }

/-- The `for t := range retries` loop of `enqueueAndCollectRetriesFor`:
each retried object has its retry counter incremented and joins the next
batch. -/
def collectRetries : List Transferable → QState → List Transferable × QState
  | [], st => ([], st)
  | t :: rest, st =>
    let st' := { st with retryCount := rcIncrement st.retryCount t.oid }
    let (ns, st'') := collectRetries rest st'
    (t :: ns, st'')

/-- `TransferQueue.ensureAdapterBegun`. -/
def ensureAdapterBegun (O : Oracles) (round : Nat) (st : QState) : QState × Option Err :=
  if st.adapterBegun then (st, none)
  else
    match O.beginErr round with
    | some e => (st, some e)
    | none => ({ st with adapterBegun := true }, none)

/-- `addToAdapter`'s failure path when `Begin` errors: every pending
transfer is skipped (`q.Skip(t.Object.Size)`) and closed out. -/
def skipAll : List (Transferable × ObjRes) → QState → QState
  | [], st => st
  | (_, o) :: rest, st =>
    skipAll rest
      { st with skippedBytes := st.skippedBytes ++ [o.size],
                closed := st.closed ++ [(o.oid, Outcome.skipped)],
                waitCount := st.waitCount - 1 }

/-- `addToAdapter` with its results drained: begin the adapter if needed
(skipping everything if `Begin` fails), perform the transfers, return the
retry stream. -/
def addToAdapter (O : Oracles) (maxRetries round : Nat)
    (pending : List (Transferable × ObjRes)) (st : QState) :
    List Transferable × QState :=
  match ensureAdapterBegun O round st with
  | (st', some e) => ([], skipAll pending { st' with errors := st'.errors ++ [e] })
  | (st', none) => dispatch O maxRetries round st'.transferables pending st'

/-- The whole-batch failure path of `enqueueAndCollectRetriesFor`: objects
for which `canRetryObject` holds are requeued with their counters
incremented; the rest are closed out (`q.wait.Done()`). -/
def negFailRequeue (maxRetries : Nat) (e : Err) :
    List Transferable → QState → List Transferable × QState
  | [], st => ([], st)
  | t :: rest, st =>
    if canRetryObject maxRetries st.retryCount t.oid e then
      let st' := { st with retryCount := rcIncrement st.retryCount t.oid }
      let (ns, st'') := negFailRequeue maxRetries e rest st'
      (t :: ns, st'')
    else
      negFailRequeue maxRetries e rest
        { st with closed := st.closed ++ [(t.oid, Outcome.failedTerminal)],
                  waitCount := st.waitCount - 1 }

/-- `TransferQueue.enqueueAndCollectRetriesFor`: one negotiation round.
Returns the next batch, the state, and the whole-batch error (if any)
that `collectBatches` forwards to the error collector.  `none` embeds a
Go panic. -/
def enqueueAndCollectRetriesFor (O : Oracles) (maxRetries round : Nat)
    (batch : List Transferable) (st : QState) :
    Option (List Transferable × QState × Option Err) :=
  match O.neg round (apiObjects batch) with
  | NegResult.fail e =>
    let (next, st') := negFailRequeue maxRetries e batch st
    some (next, st', some e)
  | NegResult.ok objs =>
    match processObjs st.transferables objs st with
    | none => none
    | some (toTransfer, st₁) =>
      let (rts, st₂) := addToAdapter O maxRetries round toTransfer st₁
      let (next, st₃) := collectRetries rts st₂
      some (next, st₃, none)

/-- The inner read loop of `collectBatches`: fill the batch from the
`incoming` channel until it is full or the channel closes.  Returns the
batch, the remaining channel contents, and the `closing` flag (set only
when a read observed the closed channel). -/
def fillBatch (batchSize : Nat) (carry pending : List Transferable) :
    List Transferable × List Transferable × Bool :=
  let need := batchSize - carry.length
  if pending.length < need then (carry ++ pending, [], true)
  else (carry ++ pending.take need, pending.drop need, false)

/-- The outer loop of `collectBatches`, fuelled: fill, sort descending by
size, negotiate and dispatch (`enqueueAndCollectRetriesFor`), forward the
round's batch error to the error collector, and loop until the channel is
closed and no retries remain.  `none` embeds a Go panic or exhausted
fuel.  `apiCalls` records the request of every `api.Batch` call. -/
def runRounds (O : Oracles) (maxRetries batchSize : Nat) :
    Nat → List Transferable → List Transferable → Bool → Nat → QState → Option QState
  | 0, _, _, _, _, _ => none
  | fuel + 1, pending, carry, closing, round, st =>
    let fill :=
      if closing then (carry, pending, true)
      else fillBatch batchSize carry pending
    let sorted := sortBySizeDesc fill.1
    let st₁ := { st with apiCalls := st.apiCalls ++ [apiObjects sorted] }
    match enqueueAndCollectRetriesFor O maxRetries round sorted st₁ with
    | none => none
    | some (next, st₂, errOpt) =>
      let st₃ := match errOpt with
        | some e => { st₂ with errors := st₂.errors ++ [e] }
        | none => st₂
      if fill.2.2 && next.isEmpty then some st₃
      else runRounds O maxRetries batchSize fuel fill.2.1 next fill.2.2 (round + 1) st₃

/-- A complete queue session: `NewTransferQueue`, `Add` of every object,
then `Wait()` — the `incoming` channel closes, the batching loop drains,
and the watcher channels (each registered by `Watch()`, all receiving the
same completed oids) are closed.  The result is the state observable
after `Wait()` returns; `none` embeds a Go panic (or exhausted fuel). -/
def runQueue (O : Oracles) (maxRetries batchSize fuel : Nat)
    (adds : List Transferable) : Option QState :=
  let start := addAll initState adds
  match runRounds O maxRetries batchSize fuel start.2 [] false 0 start.1 with
  | none => none
  | some st => some { st with watchersClosed := true }

end Tq

namespace Tq

/-! ## Sortedness of dispatched batches -/

theorem mem_insertBySize (x t : Transferable) (l : List Transferable) :
    x ∈ insertBySize t l ↔ x = t ∨ x ∈ l := by
  induction l with
  | nil => simp [insertBySize]
  | cons u rest ih =>
    rw [insertBySize]
    by_cases hc : u.size ≤ t.size
    · simp [hc, List.mem_cons]
    · simp only [hc, if_neg, not_false_iff, List.mem_cons, ih]
      tauto

theorem insertBySize_sorted (t : Transferable) (l : List Transferable)
    (h : l.Pairwise (fun a b => b.size ≤ a.size)) :
    (insertBySize t l).Pairwise (fun a b => b.size ≤ a.size) := by
  induction l with
  | nil => simp [insertBySize]
  | cons u rest ih =>
    rw [insertBySize]
    rcases List.pairwise_cons.mp h with ⟨hu, hrest⟩
    by_cases hc : u.size ≤ t.size
    · simp only [hc, if_pos]
      refine List.pairwise_cons.mpr ⟨?_, h⟩
      intro x hx
      rcases List.mem_cons.mp hx with rfl | hx'
      · exact hc
      · exact le_trans (hu x hx') hc
    · simp only [hc, if_neg, not_false_iff]
      refine List.pairwise_cons.mpr ⟨?_, ih hrest⟩
      intro x hx
      rcases (mem_insertBySize x t rest).mp hx with rfl | hx'
      · exact le_of_lt (lt_of_not_ge hc)
      · exact hu x hx'

theorem sortBySizeDesc_sorted (b : List Transferable) :
    (sortBySizeDesc b).Pairwise (fun a b => b.size ≤ a.size) := by
  induction b with
  | nil => simp [sortBySizeDesc]
  | cons t rest ih => exact insertBySize_sorted t _ ih

theorem insertBySize_perm (t : Transferable) (l : List Transferable) :
    (insertBySize t l).Perm (t :: l) := by
  induction l with
  | nil => simp [insertBySize]
  | cons u rest ih =>
    rw [insertBySize]
    by_cases hc : u.size ≤ t.size
    · simp [hc]
    · simp only [hc, if_neg, not_false_iff]
      exact List.Perm.trans (List.Perm.cons u ih) (List.Perm.swap t u rest)

theorem sortBySizeDesc_perm (b : List Transferable) :
    (sortBySizeDesc b).Perm b := by
  induction b with
  | nil => simp [sortBySizeDesc]
  | cons t rest ih =>
    exact (insertBySize_perm t (sortBySizeDesc rest)).trans (List.Perm.cons t ih)

end Tq

namespace Tq

/-! ## Per-phase accounting lemmas

Each processing phase appends a block of `wait.Done()` events (`closed`
entries) and passes the remaining objects on; the lemmas characterise
those blocks and show the bookkeeping fields that each phase leaves
untouched. -/

/-- Oids closed out as `succeeded` — exactly what is sent on the watcher
channels. -/
def succOids (l : List (String × Outcome)) : List String :=
  (l.filter fun q => decide (q.2 = Outcome.succeeded)).map Prod.fst

theorem succOids_append (a b : List (String × Outcome)) :
    succOids (a ++ b) = succOids a ++ succOids b := by
  simp [succOids, List.filter_append]

/-- The registry maps each key to a Transferable carrying that oid. -/
def coherent (tm : List (String × Transferable)) : Prop :=
  ∀ kv ∈ tm, kv.2.oid = kv.1

theorem alookup_coherent {tm : List (String × Transferable)} {k : String}
    {t : Transferable} (h : coherent tm) (hl : alookup k tm = some t) :
    t.oid = k := by
  induction tm with
  | nil => simp [alookup] at hl
  | cons kv rest ih =>
    obtain ⟨k₀, t₀⟩ := kv
    rw [alookup] at hl
    by_cases hk : k₀ = k
    · subst hk
      simp at hl
      subst hl
      exact h (k₀, t₀) (List.mem_cons_self _ _)
    · simp [hk] at hl
      exact ih (fun kv hkv => h kv (List.mem_cons_of_mem _ hkv)) hl

theorem processObjs_spec (tm : List (String × Transferable)) :
    ∀ (objs : List ObjRes) (st : QState) (ts : List (Transferable × ObjRes))
      (st' : QState),
      processObjs tm objs st = some (ts, st') →
      st'.transferables = st.transferables ∧
      st'.retryCount = st.retryCount ∧
      st'.apiCalls = st.apiCalls ∧
      st'.adapterBegun = st.adapterBegun ∧
      st'.attemptLog = st.attemptLog ∧
      (∀ p ∈ ts, alookup p.2.oid tm = some p.1) ∧
      ∃ d, st'.closed = st.closed ++ d
        ∧ st'.watched = st.watched ++ succOids d
        ∧ st'.waitCount = st.waitCount - d.length
        ∧ (d.map Prod.fst ++ ts.map (fun p => p.2.oid)).Perm (objs.map ObjRes.oid) := by
  intro objs
  induction objs with
  | nil =>
    intro st ts st' h
    simp only [processObjs, Option.some.injEq, Prod.mk.injEq] at h
    obtain ⟨rfl, rfl⟩ := h
    refine ⟨rfl, rfl, rfl, rfl, rfl, by simp, [], by simp, by simp [succOids], by simp, by simp⟩
  | cons o rest ih =>
    intro st ts st' h
    rw [processObjs] at h
    cases herr : o.err with
    | some e =>
      rw [herr] at h
      obtain ⟨h1, h2, h3, h4, h5, h6, d, hd1, hd2, hd3, hd4⟩ := ih _ _ _ h
      refine ⟨by simpa using h1, by simpa using h2, by simpa using h3,
        by simpa using h4, by simpa using h5, h6,
        (o.oid, Outcome.failedTerminal) :: d, ?_, ?_, ?_, ?_⟩
      · simpa [List.append_assoc] using hd1
      · simpa [succOids] using hd2
      · simp only [hd3]
        simp
        omega
      · simpa using List.Perm.cons o.oid hd4
    | none =>
      rw [herr] at h
      by_cases hact : o.hasAction
      · simp only [hact, if_pos] at h
        cases hlk : alookup o.oid tm with
        | none => rw [hlk] at h; exact absurd h (by simp)
        | some t =>
          rw [hlk] at h
          cases hrec : processObjs tm rest st with
          | none => rw [hrec] at h; exact absurd h (by simp)
          | some p =>
            obtain ⟨ts', st₁⟩ := p
            rw [hrec] at h
            simp only [Option.some.injEq, Prod.mk.injEq] at h
            obtain ⟨rfl, rfl⟩ := h
            obtain ⟨h1, h2, h3, h4, h5, h6, d, hd1, hd2, hd3, hd4⟩ := ih _ _ _ hrec
            refine ⟨h1, h2, h3, h4, h5, ?_, d, hd1, hd2, hd3, ?_⟩
            · intro p hp
              rcases List.mem_cons.mp hp with rfl | hp'
              · exact hlk
              · exact h6 p hp'
            · simp only [List.map_cons]
              exact List.Perm.trans List.perm_middle (List.Perm.cons o.oid hd4)
      · rw [if_neg hact] at h
        obtain ⟨h1, h2, h3, h4, h5, h6, d, hd1, hd2, hd3, hd4⟩ := ih _ _ _ h
        refine ⟨by simpa using h1, by simpa using h2, by simpa using h3,
          by simpa using h4, by simpa using h5, h6,
          (o.oid, Outcome.skipped) :: d, ?_, ?_, ?_, ?_⟩
        · simpa [List.append_assoc] using hd1
        · simpa [succOids] using hd2
        · simp only [hd3]
          simp
          omega
        · simpa using List.Perm.cons o.oid hd4

end Tq

namespace Tq

theorem dispatch_spec (O : Oracles) (maxRetries round : Nat)
    (tm : List (String × Transferable)) (hcoh : coherent tm) :
    ∀ (pend : List (Transferable × ObjRes)) (st : QState)
      (rs : List Transferable) (st' : QState),
      (∀ p ∈ pend, (alookup p.2.oid tm).isSome) →
      dispatch O maxRetries round tm pend st = (rs, st') →
      st'.transferables = st.transferables ∧
      st'.retryCount = st.retryCount ∧
      st'.apiCalls = st.apiCalls ∧
      st'.adapterBegun = st.adapterBegun ∧
      ∃ d, st'.closed = st.closed ++ d
        ∧ st'.watched = st.watched ++ succOids d
        ∧ st'.waitCount = st.waitCount - d.length
        ∧ (d.map Prod.fst ++ rs.map Transferable.oid).Perm
            (pend.map (fun p => p.2.oid)) := by
  intro pend
  induction pend with
  | nil =>
    intro st rs st' _ h
    simp only [dispatch, Prod.mk.injEq] at h
    obtain ⟨rfl, rfl⟩ := h
    exact ⟨rfl, rfl, rfl, rfl, [], by simp, by simp [succOids], by simp, by simp⟩
  | cons p rest ih =>
    intro st rs st' hlk h
    obtain ⟨tp, o⟩ := p
    rw [dispatch] at h
    cases hx : O.xfer round o.oid with
    | some e =>
      rw [hx] at h
      by_cases hcr : canRetryObject maxRetries st.retryCount o.oid e
      · simp only [hcr, if_true] at h
        cases hfind : alookup o.oid tm with
        | none =>
          exact absurd (hlk (tp, o) (List.mem_cons_self _ _)) (by simp [hfind])
        | some t' =>
          rw [hfind] at h
          cases hrec : dispatch O maxRetries round tm rest
              { st with attemptLog := st.attemptLog ++ [o.oid] } with
          | mk rs' st₁ =>
            rw [hrec] at h
            simp only [Prod.mk.injEq] at h
            obtain ⟨rfl, rfl⟩ := h
            obtain ⟨h1, h2, h3, h4, d, hd1, hd2, hd3, hd4⟩ :=
              ih _ _ _ (fun q hq => hlk q (List.mem_cons_of_mem _ hq)) hrec
            refine ⟨by simpa using h1, by simpa using h2, by simpa using h3,
              by simpa using h4, d, by simpa using hd1, by simpa using hd2,
              by simpa using hd3, ?_⟩
            have hoid : t'.oid = o.oid := alookup_coherent hcoh hfind
            simp only [List.map_cons, hoid]
            exact List.Perm.trans List.perm_middle (List.Perm.cons o.oid hd4)
      · simp only [hcr, if_false] at h
        obtain ⟨h1, h2, h3, h4, d, hd1, hd2, hd3, hd4⟩ :=
          ih _ _ _ (fun q hq => hlk q (List.mem_cons_of_mem _ hq)) h
        refine ⟨by simpa using h1, by simpa using h2, by simpa using h3,
          by simpa using h4, (o.oid, Outcome.failedTerminal) :: d, ?_, ?_, ?_, ?_⟩
        · simpa [List.append_assoc] using hd1
        · simpa [succOids] using hd2
        · simp only [hd3]
          simp
          omega
        · simpa using List.Perm.cons o.oid hd4
    | none =>
      rw [hx] at h
      obtain ⟨h1, h2, h3, h4, d, hd1, hd2, hd3, hd4⟩ :=
        ih _ _ _ (fun q hq => hlk q (List.mem_cons_of_mem _ hq)) h
      refine ⟨by simpa using h1, by simpa using h2, by simpa using h3,
        by simpa using h4, (o.oid, Outcome.succeeded) :: d, ?_, ?_, ?_, ?_⟩
      · simpa [List.append_assoc] using hd1
      · simp only [hd1, hd2]
        simp [succOids, List.append_assoc]
      · simp only [hd3]
        simp
        omega
      · simpa using List.Perm.cons o.oid hd4

theorem collectRetries_spec :
    ∀ (rs : List Transferable) (st : QState) (ns : List Transferable) (st' : QState),
      collectRetries rs st = (ns, st') →
      ns = rs ∧
      st'.transferables = st.transferables ∧
      st'.apiCalls = st.apiCalls ∧
      st'.adapterBegun = st.adapterBegun ∧
      st'.closed = st.closed ∧
      st'.watched = st.watched ∧
      st'.waitCount = st.waitCount := by
  intro rs
  induction rs with
  | nil =>
    intro st ns st' h
    simp only [collectRetries, Prod.mk.injEq] at h
    obtain ⟨rfl, rfl⟩ := h
    simp
  | cons t rest ih =>
    intro st ns st' h
    rw [collectRetries] at h
    cases hrec : collectRetries rest
        { st with retryCount := rcIncrement st.retryCount t.oid } with
    | mk ns' st₁ =>
      rw [hrec] at h
      simp only [Prod.mk.injEq] at h
      obtain ⟨rfl, rfl⟩ := h
      obtain ⟨rfl, h2, h3, h4, h5, h6, h7⟩ := ih _ _ _ hrec
      exact ⟨rfl, by simpa using h2, by simpa using h3, by simpa using h4,
        by simpa using h5, by simpa using h6, by simpa using h7⟩

theorem skipAll_spec :
    ∀ (pend : List (Transferable × ObjRes)) (st : QState),
      (skipAll pend st).transferables = st.transferables ∧
      (skipAll pend st).retryCount = st.retryCount ∧
      (skipAll pend st).apiCalls = st.apiCalls ∧
      (skipAll pend st).adapterBegun = st.adapterBegun ∧
      ∃ d, (skipAll pend st).closed = st.closed ++ d
        ∧ (skipAll pend st).watched = st.watched ++ succOids d
        ∧ (skipAll pend st).waitCount = st.waitCount - d.length
        ∧ d.map Prod.fst = pend.map (fun p => p.2.oid) := by
  intro pend
  induction pend with
  | nil =>
    intro st
    exact ⟨rfl, rfl, rfl, rfl, [], by simp [skipAll], by simp [skipAll, succOids],
      by simp [skipAll], by simp⟩
  | cons p rest ih =>
    intro st
    obtain ⟨tp, o⟩ := p
    rw [skipAll]
    obtain ⟨h1, h2, h3, h4, d, hd1, hd2, hd3, hd4⟩ := ih
      { st with skippedBytes := st.skippedBytes ++ [o.size],
                closed := st.closed ++ [(o.oid, Outcome.skipped)],
                waitCount := st.waitCount - 1 }
    refine ⟨by simpa using h1, by simpa using h2, by simpa using h3,
      by simpa using h4, (o.oid, Outcome.skipped) :: d, ?_, ?_, ?_, ?_⟩
    · simpa [List.append_assoc] using hd1
    · simpa [succOids] using hd2
    · simp only [hd3]
      simp
      omega
    · simpa using hd4

theorem ensureAdapterBegun_spec (O : Oracles) (round : Nat) (st : QState) :
    (ensureAdapterBegun O round st).1.transferables = st.transferables ∧
    (ensureAdapterBegun O round st).1.retryCount = st.retryCount ∧
    (ensureAdapterBegun O round st).1.apiCalls = st.apiCalls ∧
    (ensureAdapterBegun O round st).1.closed = st.closed ∧
    (ensureAdapterBegun O round st).1.watched = st.watched ∧
    (ensureAdapterBegun O round st).1.waitCount = st.waitCount := by
  rw [ensureAdapterBegun]
  by_cases hb : st.adapterBegun
  · simp [hb]
  · cases hbe : O.beginErr round <;> simp [hb, hbe]

theorem addToAdapter_spec (O : Oracles) (maxRetries round : Nat)
    (pend : List (Transferable × ObjRes)) (st : QState)
    (rs : List Transferable) (st' : QState)
    (hcoh : coherent st.transferables)
    (hlk : ∀ p ∈ pend, (alookup p.2.oid st.transferables).isSome)
    (h : addToAdapter O maxRetries round pend st = (rs, st')) :
    st'.transferables = st.transferables ∧
    st'.retryCount = st.retryCount ∧
    st'.apiCalls = st.apiCalls ∧
    ∃ d, st'.closed = st.closed ++ d
      ∧ st'.watched = st.watched ++ succOids d
      ∧ st'.waitCount = st.waitCount - d.length
      ∧ (d.map Prod.fst ++ rs.map Transferable.oid).Perm
          (pend.map (fun p => p.2.oid)) := by
  rw [addToAdapter] at h
  obtain ⟨e1, e2, e3, e4, e5, e6⟩ := ensureAdapterBegun_spec O round st
  cases hens : ensureAdapterBegun O round st with
  | mk st₁ eo =>
    rw [hens] at h
    rw [hens] at e1 e2 e3 e4 e5 e6
    cases eo with
    | some e =>
      simp only [Prod.mk.injEq] at h
      obtain ⟨rfl, rfl⟩ := h
      obtain ⟨s1, s2, s3, s4, d, hd1, hd2, hd3, hd4⟩ :=
        skipAll_spec pend { st₁ with errors := st₁.errors ++ [e] }
      refine ⟨by simp_all, by simp_all, by simp_all, d, by simp_all, by simp_all,
        by simp_all, by simp [hd4]⟩
    | none =>
      have hd := dispatch_spec O maxRetries round st₁.transferables
        (by rw [e1]; exact hcoh) pend st₁ rs st'
        (by rw [e1]; exact hlk) h
      obtain ⟨h1, h2, h3, _, d, hd1, hd2, hd3, hd4⟩ := hd
      exact ⟨by rw [h1, e1], by rw [h2, e2], by rw [h3, e3], d,
        by rw [hd1, e4], by rw [hd2, e5], by rw [hd3, e6], hd4⟩

end Tq

namespace Tq

theorem negFailRequeue_spec (maxRetries : Nat) (e : Err) :
    ∀ (batch : List Transferable) (st : QState) (ns : List Transferable) (st' : QState),
      negFailRequeue maxRetries e batch st = (ns, st') →
      st'.transferables = st.transferables ∧
      st'.apiCalls = st.apiCalls ∧
      st'.adapterBegun = st.adapterBegun ∧
      ∃ d, st'.closed = st.closed ++ d
        ∧ st'.watched = st.watched ++ succOids d
        ∧ st'.waitCount = st.waitCount - d.length
        ∧ (d.map Prod.fst ++ ns.map Transferable.oid).Perm
            (batch.map Transferable.oid) := by
  intro batch
  induction batch with
  | nil =>
    intro st ns st' h
    simp only [negFailRequeue, Prod.mk.injEq] at h
    obtain ⟨rfl, rfl⟩ := h
    exact ⟨rfl, rfl, rfl, [], by simp, by simp [succOids], by simp, by simp⟩
  | cons t rest ih =>
    intro st ns st' h
    rw [negFailRequeue] at h
    by_cases hcr : canRetryObject maxRetries st.retryCount t.oid e
    · simp only [hcr, if_true] at h
      cases hrec : negFailRequeue maxRetries e rest
          { st with retryCount := rcIncrement st.retryCount t.oid } with
      | mk ns' st₁ =>
        rw [hrec] at h
        simp only [Prod.mk.injEq] at h
        obtain ⟨rfl, rfl⟩ := h
        obtain ⟨h1, h2, h3, d, hd1, hd2, hd3, hd4⟩ := ih _ _ _ hrec
        refine ⟨by simpa using h1, by simpa using h2, by simpa using h3,
          d, by simpa using hd1, by simpa using hd2, by simpa using hd3, ?_⟩
        simp only [List.map_cons]
        exact List.Perm.trans List.perm_middle (List.Perm.cons t.oid hd4)
    · simp only [hcr, if_false] at h
      obtain ⟨h1, h2, h3, d, hd1, hd2, hd3, hd4⟩ := ih _ _ _ h
      refine ⟨by simpa using h1, by simpa using h2, by simpa using h3,
        (t.oid, Outcome.failedTerminal) :: d, ?_, ?_, ?_, ?_⟩
      · simpa [List.append_assoc] using hd1
      · simpa [succOids] using hd2
      · simp only [hd3]
        simp
        omega
      · simpa using List.Perm.cons t.oid hd4

theorem apiObjects_fst (b : List Transferable) :
    (apiObjects b).map Prod.fst = b.map Transferable.oid := by
  simp [apiObjects]

theorem enqueue_spec (O : Oracles) (maxRetries round : Nat)
    (batch : List Transferable) (st : QState)
    (next : List Transferable) (st' : QState) (eo : Option Err)
    (hcoh : coherent st.transferables)
    (hwb : ∀ objs, O.neg round (apiObjects batch) = NegResult.ok objs →
        objs.map ObjRes.oid = (apiObjects batch).map Prod.fst)
    (h : enqueueAndCollectRetriesFor O maxRetries round batch st
        = some (next, st', eo)) :
    st'.transferables = st.transferables ∧
    st'.apiCalls = st.apiCalls ∧
    ∃ d, st'.closed = st.closed ++ d
      ∧ st'.watched = st.watched ++ succOids d
      ∧ st'.waitCount = st.waitCount - d.length
      ∧ (d.map Prod.fst ++ next.map Transferable.oid).Perm
          (batch.map Transferable.oid) := by
  rw [enqueueAndCollectRetriesFor] at h
  cases hneg : O.neg round (apiObjects batch) with
  | fail e =>
    simp only [hneg] at h
    cases hnf : negFailRequeue maxRetries e batch st with
    | mk ns st₁ =>
      simp only [hnf, Option.some.injEq, Prod.mk.injEq] at h
      obtain ⟨rfl, rfl, rfl⟩ := h
      obtain ⟨h1, h2, _, d, hd1, hd2, hd3, hd4⟩ := negFailRequeue_spec _ _ _ _ _ _ hnf
      exact ⟨h1, h2, d, hd1, hd2, hd3, hd4⟩
  | ok objs =>
    simp only [hneg] at h
    cases hpo : processObjs st.transferables objs st with
    | none => rw [hpo] at h; exact absurd h (by simp)
    | some p =>
      obtain ⟨ts, st₁⟩ := p
      simp only [hpo] at h
      obtain ⟨p1, p2, p3, p4, p5, p6, dp, hp1, hp2, hp3, hp4⟩ :=
        processObjs_spec _ _ _ _ _ hpo
      cases hada : addToAdapter O maxRetries round ts st₁ with
      | mk rs st₂ =>
        simp only [hada] at h
        cases hcr : collectRetries rs st₂ with
        | mk ns st₃ =>
          simp only [hcr, Option.some.injEq, Prod.mk.injEq] at h
          obtain ⟨rfl, rfl, rfl⟩ := h
          obtain ⟨a1, _, a3, da, ha1, ha2, ha3, ha4⟩ :=
            addToAdapter_spec O maxRetries round ts st₁ rs st₂
              (by rw [p1]; exact hcoh)
              (by
                intro q hq
                rw [p1]
                have := p6 q hq
                simp [this])
              hada
          obtain ⟨rfl, c2, c3, c4, c5, c6, c7⟩ := collectRetries_spec _ _ _ _ hcr
          have hoid : objs.map ObjRes.oid = batch.map Transferable.oid := by
            rw [hwb objs hneg, apiObjects_fst]
          refine ⟨by rw [c2, a1, p1], by rw [c3, a3, p3], dp ++ da, ?_, ?_, ?_, ?_⟩
          · rw [c5, ha1, hp1, List.append_assoc]
          · rw [c6, ha2, hp2, succOids_append, List.append_assoc]
          · rw [c7, ha3, hp3]
            simp
            omega
          · have e1 : ((dp ++ da).map Prod.fst ++ ns.map Transferable.oid)
                = dp.map Prod.fst ++ (da.map Prod.fst ++ ns.map Transferable.oid) := by
              simp [List.append_assoc]
            rw [e1, ← hoid]
            exact List.Perm.trans (List.Perm.append_left _ ha4) hp4

end Tq

namespace Tq

theorem runRounds_spec (O : Oracles) (maxRetries batchSize : Nat)
    (hwb : ∀ n req objs, O.neg n req = NegResult.ok objs →
        objs.map ObjRes.oid = req.map Prod.fst) :
    ∀ (fuel : Nat) (pending carry : List Transferable) (closing : Bool)
      (round : Nat) (st st' : QState),
      coherent st.transferables →
      (closing = true → pending = []) →
      runRounds O maxRetries batchSize fuel pending carry closing round st = some st' →
      st'.transferables = st.transferables ∧
      ∃ d, st'.closed = st.closed ++ d
        ∧ st'.watched = st.watched ++ succOids d
        ∧ st'.waitCount = st.waitCount - d.length
        ∧ (d.map Prod.fst).Perm
            (pending.map Transferable.oid ++ carry.map Transferable.oid) := by
  intro fuel
  induction fuel with
  | zero =>
    intro pending carry closing round st st' _ _ h
    exact absurd h (by simp [runRounds])
  | succ fuel ih =>
    intro pending carry closing round st st' hcoh hcl h
    obtain ⟨batch, rest, closing', hfill, hpf, hcl'⟩ :
        ∃ b r c,
          (if closing then (carry, pending, true)
            else fillBatch batchSize carry pending) = (b, r, c)
          ∧ ((b.map Transferable.oid ++ r.map Transferable.oid).Perm
              (pending.map Transferable.oid ++ carry.map Transferable.oid))
          ∧ (c = true → r = []) := by
      cases closing with
      | true =>
        have hp : pending = [] := hcl rfl
        subst hp
        exact ⟨carry, [], true, by simp, by simp, fun _ => rfl⟩
      | false =>
        by_cases hc : pending.length < batchSize - carry.length
        · refine ⟨carry ++ pending, [], true, by simp [fillBatch, hc], ?_, fun _ => rfl⟩
          simp only [List.map_append, List.map_nil, List.append_nil]
          exact List.perm_append_comm
        · refine ⟨carry ++ pending.take (batchSize - carry.length),
            pending.drop (batchSize - carry.length), false,
            by simp [fillBatch, hc], ?_, by simp⟩
          simp only [List.map_append]
          rw [List.append_assoc, ← List.map_append, List.take_append_drop]
          exact List.perm_append_comm
    rw [runRounds] at h
    simp only [hfill] at h
    cases henq : enqueueAndCollectRetriesFor O maxRetries round (sortBySizeDesc batch)
        { st with apiCalls := st.apiCalls ++ [apiObjects (sortBySizeDesc batch)] } with
    | none =>
      simp only [henq] at h
      exact Option.noConfusion h
    | some trip =>
      obtain ⟨next, st₂, errOpt⟩ := trip
      simp only [henq] at h
      obtain ⟨e1, _, dr, hr1, hr2, hr3, hr4⟩ :=
        enqueue_spec O maxRetries round (sortBySizeDesc batch)
          { st with apiCalls := st.apiCalls ++ [apiObjects (sortBySizeDesc batch)] }
          next st₂ errOpt hcoh (fun objs ho => hwb _ _ _ ho) henq
      have e1' : st₂.transferables = st.transferables := by simpa using e1
      have hr1' : st₂.closed = st.closed ++ dr := by simpa using hr1
      have hr2' : st₂.watched = st.watched ++ succOids dr := by simpa using hr2
      have hr3' : st₂.waitCount = st.waitCount - dr.length := by simpa using hr3
      have hsorted : ((sortBySizeDesc batch).map Transferable.oid).Perm
          (batch.map Transferable.oid) := List.Perm.map _ (sortBySizeDesc_perm batch)
      obtain ⟨st₃, hM, m1, m2, m3, m4⟩ :
          ∃ st₃, (match errOpt with
            | some e => { st₂ with errors := st₂.errors ++ [e] }
            | none => st₂) = st₃ ∧ st₃.transferables = st₂.transferables ∧
            st₃.closed = st₂.closed ∧ st₃.watched = st₂.watched ∧
            st₃.waitCount = st₂.waitCount := by
        cases errOpt with
        | some e => exact ⟨_, rfl, rfl, rfl, rfl, rfl⟩
        | none => exact ⟨_, rfl, rfl, rfl, rfl, rfl⟩
      rw [hM] at h
      cases hbb : closing' && next.isEmpty with
      | true =>
        simp only [hbb, if_true] at h
        obtain ⟨hc', hni⟩ := Bool.and_eq_true_iff.mp hbb
        have hnext : next = [] := by simpa using hni
        have hrest : rest = [] := hcl' hc'
        obtain rfl : st₃ = st' := by simpa using h
        subst hnext hrest
        refine ⟨by rw [m1, e1'], dr, by rw [m2, hr1'], by rw [m3, hr2'],
          by rw [m4, hr3'], ?_⟩
        have h1 : (dr.map Prod.fst).Perm ((sortBySizeDesc batch).map Transferable.oid) := by
          simpa using hr4
        refine (h1.trans hsorted).trans ?_
        simpa using hpf
      | false =>
        simp only [hbb, if_false] at h
        have hcoh₃ : coherent st₃.transferables := by rw [m1, e1']; exact hcoh
        obtain ⟨i1, d', hi1, hi2, hi3, hi4⟩ :=
          ih rest next closing' (round + 1) st₃ st' hcoh₃ hcl' h
        refine ⟨by rw [i1, m1, e1'], dr ++ d', ?_, ?_, ?_, ?_⟩
        · rw [hi1, m2, hr1', List.append_assoc]
        · rw [hi2, m3, hr2', succOids_append, List.append_assoc]
        · rw [hi3, m4, hr3']
          simp
          omega
        · have s1 : ((dr ++ d').map Prod.fst)
              = dr.map Prod.fst ++ d'.map Prod.fst := by simp
          rw [s1]
          have s2 : (dr.map Prod.fst ++ d'.map Prod.fst).Perm
              (dr.map Prod.fst ++ (rest.map Transferable.oid ++ next.map Transferable.oid)) :=
            List.Perm.append_left _ hi4
          have s3 : (dr.map Prod.fst ++ (rest.map Transferable.oid ++ next.map Transferable.oid)).Perm
              (dr.map Prod.fst ++ (next.map Transferable.oid ++ rest.map Transferable.oid)) :=
            List.Perm.append_left _ List.perm_append_comm
          have s4 : (dr.map Prod.fst ++ (next.map Transferable.oid ++ rest.map Transferable.oid))
              = (dr.map Prod.fst ++ next.map Transferable.oid) ++ rest.map Transferable.oid := by
            rw [List.append_assoc]
          have s5 : ((dr.map Prod.fst ++ next.map Transferable.oid) ++ rest.map Transferable.oid).Perm
              (((sortBySizeDesc batch).map Transferable.oid) ++ rest.map Transferable.oid) :=
            List.Perm.append_right _ hr4
          have s6 : (((sortBySizeDesc batch).map Transferable.oid) ++ rest.map Transferable.oid).Perm
              ((batch.map Transferable.oid) ++ rest.map Transferable.oid) :=
            List.Perm.append_right _ hsorted
          exact ((((s2.trans s3).trans (s4 ▸ List.Perm.refl _)).trans s5).trans s6).trans hpf

end Tq

theorem alookup_append_eq_none (k : String) (m₁ m₂ : List (String × α)) :
    alookup k (m₁ ++ m₂) = none ↔ alookup k m₁ = none ∧ alookup k m₂ = none := by
  induction m₁ with
  | nil => simp [alookup]
  | cons kv rest ih =>
    obtain ⟨k₀, v₀⟩ := kv
    by_cases hk : k₀ = k
    · simp [alookup, hk]
    · simp [alookup, hk, ih]

namespace Tq

theorem addAll_spec :
    ∀ (ts : List Transferable) (st : QState),
      (addAll st ts).1.transferables
          = st.transferables ++ (addAll st ts).2.map (fun t => (t.oid, t)) ∧
      (addAll st ts).1.waitCount = st.waitCount + (addAll st ts).2.length ∧
      (addAll st ts).1.closed = st.closed ∧
      (addAll st ts).1.watched = st.watched ∧
      (addAll st ts).1.apiCalls = st.apiCalls ∧
      (addAll st ts).1.retryCount = st.retryCount ∧
      (addAll st ts).1.adapterBegun = st.adapterBegun ∧
      (addAll st ts).1.attemptLog = st.attemptLog ∧
      (addAll st ts).1.errors = st.errors ∧
      (∀ t ∈ (addAll st ts).2, alookup t.oid st.transferables = none) ∧
      ((addAll st ts).2.map Transferable.oid).Nodup := by
  intro ts
  induction ts with
  | nil =>
    intro st
    simp [addAll]
  | cons t rest ih =>
    intro st
    rw [addAll, addOne]
    cases hlk : alookup t.oid st.transferables with
    | some t₀ =>
      simp only [hlk]
      exact ih st
    | none =>
      simp only [hlk]
      cases hrec : addAll
          { st with transferables := st.transferables ++ [(t.oid, t)],
                    waitCount := st.waitCount + 1 } rest with
      | mk st₁ inc =>
        simp only [hrec]
        obtain ⟨i1, i2, i3, i4, i5, i6, i7, i8, i9, i10, i11⟩ := ih
          { st with transferables := st.transferables ++ [(t.oid, t)],
                    waitCount := st.waitCount + 1 }
        simp only [hrec] at i1 i2 i3 i4 i5 i6 i7 i8 i9 i10 i11
        have hne : ∀ u ∈ inc, u.oid ≠ t.oid := by
          intro u hu
          have h2 := (alookup_append_eq_none u.oid st.transferables [(t.oid, t)]).mp
            (by simpa using i10 u hu)
          intro hcontra
          have := h2.2
          rw [hcontra] at this
          simp [alookup] at this
        refine ⟨?_, ?_, by simpa using i3, by simpa using i4, by simpa using i5,
          by simpa using i6, by simpa using i7, by simpa using i8, by simpa using i9,
          ?_, ?_⟩
        · simp only [i1]
          simp [List.append_assoc]
        · simp only [i2]
          simp
          omega
        · intro u hu
          rcases List.mem_cons.mp hu with rfl | hu'
          · exact hlk
          · exact ((alookup_append_eq_none u.oid st.transferables [(t.oid, t)]).mp
              (by simpa using i10 u hu')).1
        · simp only [List.map_cons, List.nodup_cons]
          refine ⟨?_, i11⟩
          intro hmem
          obtain ⟨u, hu, hoid⟩ := List.mem_map.mp hmem
          exact hne u hu hoid

/-- The oids the `Add` phase registers, i.e. the unique oids among the
objects added to the queue. -/
theorem addAll_init_keys (adds : List Transferable) :
    (addAll initState adds).1.transferables.map Prod.fst
      = (addAll initState adds).2.map Transferable.oid := by
  obtain ⟨a1, _⟩ := addAll_spec adds initState
  rw [a1]
  simp [initState]

theorem addAll_init_coherent (adds : List Transferable) :
    coherent (addAll initState adds).1.transferables := by
  obtain ⟨a1, _⟩ := addAll_spec adds initState
  rw [a1]
  intro kv hkv
  simp only [initState, List.nil_append] at hkv
  obtain ⟨u, _, rfl⟩ := List.mem_map.mp hkv
  rfl

end Tq

/-- **C1.** For every set of objects added to a transfer queue (with a
well-behaved negotiation endpoint: each successful response covers exactly
the requested oids), when `Wait()` returns, every unique added `Oid` has
reached exactly one terminal outcome — the `closed` log, which records
every `wait.Done()` together with its outcome, contains each unique added
oid exactly once — and the wait-group counter is back to zero, so `Wait()`
returns only after every added oid has been closed out. -/
theorem transferQueue_once_per_oid (O : Tq.Oracles) (maxRetries batchSize fuel : Nat)
    (adds : List Tq.Transferable) (st : Tq.QState)
    (hwb : ∀ n req objs, O.neg n req = Tq.NegResult.ok objs →
        objs.map Tq.ObjRes.oid = req.map Prod.fst)
    (h : Tq.runQueue O maxRetries batchSize fuel adds = some st) :
    (st.closed.map Prod.fst).Perm (st.transferables.map Prod.fst)
    ∧ (st.transferables.map Prod.fst).Nodup
    ∧ (∀ oid ∈ st.transferables.map Prod.fst, (st.closed.map Prod.fst).count oid = 1)
    ∧ st.waitCount = 0 := by
  rw [Tq.runQueue] at h
  cases hrun : Tq.runRounds O maxRetries batchSize fuel
      (Tq.addAll Tq.initState adds).2 [] false 0 (Tq.addAll Tq.initState adds).1 with
  | none =>
    simp only [hrun] at h
    exact Option.noConfusion h
  | some stF =>
    simp only [hrun, Option.some.injEq] at h
    subst h
    obtain ⟨r1, d, rd1, rd2, rd3, rd4⟩ :=
      Tq.runRounds_spec O maxRetries batchSize hwb fuel
        (Tq.addAll Tq.initState adds).2 [] false 0
        (Tq.addAll Tq.initState adds).1 stF
        (Tq.addAll_init_coherent adds) (by simp) hrun
    obtain ⟨a1, a2, a3, _⟩ := Tq.addAll_spec adds Tq.initState
    have hkeys : stF.transferables.map Prod.fst
        = (Tq.addAll Tq.initState adds).2.map Tq.Transferable.oid := by
      rw [r1, Tq.addAll_init_keys]
    have hclosed : stF.closed = d := by
      rw [rd1, a3]
      simp [Tq.initState]
    have hperm : (stF.closed.map Prod.fst).Perm (stF.transferables.map Prod.fst) := by
      rw [hclosed, hkeys]
      simpa using rd4
    have hnodup : (stF.transferables.map Prod.fst).Nodup := by
      rw [hkeys]
      obtain ⟨_, _, _, _, _, _, _, _, _, _, hnd⟩ := Tq.addAll_spec adds Tq.initState
      exact hnd
    refine ⟨hperm, hnodup, ?_, ?_⟩
    · intro oid hmem
      have h1 : (stF.closed.map Prod.fst).count oid
          = (stF.transferables.map Prod.fst).count oid := hperm.count_eq oid
      rw [h1]
      exact List.count_eq_one_of_mem hnodup hmem
    · have hlen : d.length = (Tq.addAll Tq.initState adds).2.length := by
        have := rd4.length_eq
        simpa using this
      have hw0 : (Tq.addAll Tq.initState adds).1.waitCount
          = ((Tq.addAll Tq.initState adds).2.length : Int) := by
        rw [a2]
        simp [Tq.initState]
      show stF.waitCount = 0
      rw [rd3, hw0, hlen]
      simp

/-- Witness oracle: the server answers every batch with a per-object
"no action needed" resource, transfers always succeed, `Begin` succeeds. -/
def okOracles : Tq.Oracles :=
  { neg := fun _ req => Tq.NegResult.ok (req.map fun p => ⟨p.1, p.2, none, false⟩),
    xfer := fun _ _ => none,
    beginErr := fun _ => none }

theorem okOracles_wb : ∀ (n : Nat) (req : List (String × Int)) (objs : List Tq.ObjRes),
    okOracles.neg n req = Tq.NegResult.ok objs →
    objs.map Tq.ObjRes.oid = req.map Prod.fst := by
  intro n req objs ho
  simp only [okOracles] at ho
  injection ho with ho
  subst ho
  simp

/-- Witness for `transferQueue_once_per_oid`: two objects negotiated as
"already present" by `okOracles`; both are closed out exactly once and the
wait-group returns to zero. -/
theorem transferQueue_once_per_oid_witness :
    (Tq.runQueue okOracles 1 2 5 [⟨"a", 3, "a.dat"⟩, ⟨"b", 1, "b.dat"⟩]
        = some ((Tq.runQueue okOracles 1 2 5
            [⟨"a", 3, "a.dat"⟩, ⟨"b", 1, "b.dat"⟩]).getD Tq.initState))
    ∧ ((Tq.runQueue okOracles 1 2 5 [⟨"a", 3, "a.dat"⟩, ⟨"b", 1, "b.dat"⟩]).getD
        Tq.initState).waitCount = 0 :=
  ⟨rfl, (transferQueue_once_per_oid okOracles 1 2 5
    [⟨"a", 3, "a.dat"⟩, ⟨"b", 1, "b.dat"⟩] _ okOracles_wb rfl).2.2.2⟩

/-- **C10.** A watcher channel receives exactly the oids of the objects
whose transfer attempt succeeded, in the order the results complete
(`watched` equals the `succeeded` entries of the close-out log, in
order); oids that end `Skipped` or `Failed-Terminal` are never sent; and
every registered watcher channel is closed during `Wait()`, after every
added oid has reached its terminal outcome. -/
theorem watchers_receive_exactly_successes (O : Tq.Oracles)
    (maxRetries batchSize fuel : Nat) (adds : List Tq.Transferable) (st : Tq.QState)
    (hwb : ∀ n req objs, O.neg n req = Tq.NegResult.ok objs →
        objs.map Tq.ObjRes.oid = req.map Prod.fst)
    (h : Tq.runQueue O maxRetries batchSize fuel adds = some st) :
    st.watched = Tq.succOids st.closed
    ∧ st.watchersClosed = true
    ∧ (st.closed.map Prod.fst).Perm (st.transferables.map Prod.fst) := by
  rw [Tq.runQueue] at h
  cases hrun : Tq.runRounds O maxRetries batchSize fuel
      (Tq.addAll Tq.initState adds).2 [] false 0 (Tq.addAll Tq.initState adds).1 with
  | none =>
    simp only [hrun] at h
    exact Option.noConfusion h
  | some stF =>
    simp only [hrun, Option.some.injEq] at h
    subst h
    obtain ⟨r1, d, rd1, rd2, rd3, rd4⟩ :=
      Tq.runRounds_spec O maxRetries batchSize hwb fuel
        (Tq.addAll Tq.initState adds).2 [] false 0
        (Tq.addAll Tq.initState adds).1 stF
        (Tq.addAll_init_coherent adds) (by simp) hrun
    obtain ⟨a1, a2, a3, a4, _⟩ := Tq.addAll_spec adds Tq.initState
    have hclosed : stF.closed = d := by
      rw [rd1, a3]
      simp [Tq.initState]
    refine ⟨?_, rfl, ?_⟩
    · show stF.watched = Tq.succOids stF.closed
      rw [rd2, a4, hclosed]
      simp [Tq.initState]
    · show (stF.closed.map Prod.fst).Perm (stF.transferables.map Prod.fst)
      rw [hclosed, r1, Tq.addAll_init_keys]
      simpa using rd4

/-- Witness for `watchers_receive_exactly_successes`: one object whose
transfer succeeds under an always-authorize, always-succeed oracle. -/
def xferOkOracles : Tq.Oracles :=
  { neg := fun _ req => Tq.NegResult.ok (req.map fun p => ⟨p.1, p.2, none, true⟩),
    xfer := fun _ _ => none,
    beginErr := fun _ => none }

theorem xferOkOracles_wb : ∀ (n : Nat) (req : List (String × Int))
    (objs : List Tq.ObjRes), xferOkOracles.neg n req = Tq.NegResult.ok objs →
    objs.map Tq.ObjRes.oid = req.map Prod.fst := by
  intro n req objs ho
  simp only [xferOkOracles] at ho
  injection ho with ho
  subst ho
  simp

theorem watchers_receive_exactly_successes_witness :
    (Tq.runQueue xferOkOracles 1 2 5 [⟨"a", 3, "a.dat"⟩]
        = some ((Tq.runQueue xferOkOracles 1 2 5 [⟨"a", 3, "a.dat"⟩]).getD Tq.initState))
    ∧ ((Tq.runQueue xferOkOracles 1 2 5 [⟨"a", 3, "a.dat"⟩]).getD Tq.initState).watched
        = Tq.succOids ((Tq.runQueue xferOkOracles 1 2 5 [⟨"a", 3, "a.dat"⟩]).getD
            Tq.initState).closed :=
  ⟨rfl, (watchers_receive_exactly_successes xferOkOracles 1 2 5
    [⟨"a", 3, "a.dat"⟩] _ xferOkOracles_wb rfl).1⟩

namespace Tq

/-- `dispatch` never touches the registry or the call log, with no side
conditions (unlike `dispatch_spec`). -/
theorem dispatch_frames (O : Oracles) (maxRetries round : Nat)
    (tm : List (String × Transferable)) :
    ∀ (pend : List (Transferable × ObjRes)) (st : QState)
      (rs : List Transferable) (st' : QState),
      dispatch O maxRetries round tm pend st = (rs, st') →
      st'.transferables = st.transferables ∧ st'.apiCalls = st.apiCalls := by
  intro pend
  induction pend with
  | nil =>
    intro st rs st' h
    simp only [dispatch, Prod.mk.injEq] at h
    obtain ⟨rfl, rfl⟩ := h
    exact ⟨rfl, rfl⟩
  | cons p rest ih =>
    intro st rs st' h
    obtain ⟨tp, o⟩ := p
    rw [dispatch] at h
    cases hx : O.xfer round o.oid with
    | some e =>
      rw [hx] at h
      by_cases hcr : canRetryObject maxRetries st.retryCount o.oid e
      · simp only [hcr, if_true] at h
        cases hfind : alookup o.oid tm with
        | none =>
          rw [hfind] at h
          obtain ⟨h1, h2⟩ := ih _ _ _ h
          exact ⟨by simpa using h1, by simpa using h2⟩
        | some t' =>
          rw [hfind] at h
          cases hrec : dispatch O maxRetries round tm rest
              { st with attemptLog := st.attemptLog ++ [o.oid] } with
          | mk rs' st₁ =>
            rw [hrec] at h
            simp only [Prod.mk.injEq] at h
            obtain ⟨rfl, rfl⟩ := h
            obtain ⟨h1, h2⟩ := ih _ _ _ hrec
            exact ⟨by simpa using h1, by simpa using h2⟩
      · simp only [hcr, if_false] at h
        obtain ⟨h1, h2⟩ := ih _ _ _ h
        exact ⟨by simpa using h1, by simpa using h2⟩
    | none =>
      rw [hx] at h
      obtain ⟨h1, h2⟩ := ih _ _ _ h
      exact ⟨by simpa using h1, by simpa using h2⟩

/-- One negotiation round never touches the registry or the call log. -/
theorem enqueue_frames (O : Oracles) (maxRetries round : Nat)
    (batch : List Transferable) (st : QState)
    (next : List Transferable) (st' : QState) (eo : Option Err)
    (h : enqueueAndCollectRetriesFor O maxRetries round batch st
        = some (next, st', eo)) :
    st'.transferables = st.transferables ∧ st'.apiCalls = st.apiCalls := by
  rw [enqueueAndCollectRetriesFor] at h
  cases hneg : O.neg round (apiObjects batch) with
  | fail e =>
    simp only [hneg] at h
    cases hnf : negFailRequeue maxRetries e batch st with
    | mk ns st₁ =>
      simp only [hnf, Option.some.injEq, Prod.mk.injEq] at h
      obtain ⟨rfl, rfl, rfl⟩ := h
      obtain ⟨h1, h2, _⟩ := negFailRequeue_spec _ _ _ _ _ _ hnf
      exact ⟨h1, h2⟩
  | ok objs =>
    simp only [hneg] at h
    cases hpo : processObjs st.transferables objs st with
    | none => rw [hpo] at h; exact absurd h (by simp)
    | some p =>
      obtain ⟨ts, st₁⟩ := p
      simp only [hpo] at h
      obtain ⟨p1, _, p3, _⟩ := processObjs_spec _ _ _ _ _ hpo
      cases hada : addToAdapter O maxRetries round ts st₁ with
      | mk rs st₂ =>
        simp only [hada] at h
        cases hcr : collectRetries rs st₂ with
        | mk ns st₃ =>
          simp only [hcr, Option.some.injEq, Prod.mk.injEq] at h
          obtain ⟨rfl, rfl, rfl⟩ := h
          obtain ⟨rfl, c2, c3, _⟩ := collectRetries_spec _ _ _ _ hcr
          rw [addToAdapter] at hada
          obtain ⟨e1, _, e3, _⟩ := ensureAdapterBegun_spec O round st₁
          cases hens : ensureAdapterBegun O round st₁ with
          | mk stE eoE =>
            rw [hens] at hada e1 e3
            cases eoE with
            | some e =>
              simp only [Prod.mk.injEq] at hada
              obtain ⟨hrs, hst₂⟩ := hada
              obtain ⟨s1, _, s3, _⟩ := skipAll_spec ts { stE with errors := stE.errors ++ [e] }
              refine ⟨?_, ?_⟩
              · rw [c2, ← hst₂]
                rw [show (skipAll ts { stE with errors := stE.errors ++ [e] }).transferables
                    = stE.transferables from by simpa using s1]
                rw [e1, p1]
              · rw [c3, ← hst₂]
                rw [show (skipAll ts { stE with errors := stE.errors ++ [e] }).apiCalls
                    = stE.apiCalls from by simpa using s3]
                rw [e3, p3]
            | none =>
              obtain ⟨d1, d2⟩ := dispatch_frames O maxRetries round
                stE.transferables ts stE ns st₂ hada
              exact ⟨by rw [c2, d1, e1, p1], by rw [c3, d2, e3, p3]⟩

end Tq

namespace Tq

/-- Every entry the batching loop appends to the call log is a batch
sorted descending by size; previously sorted entries stay sorted. -/
theorem runRounds_apiCalls_sorted (O : Oracles) (maxRetries batchSize : Nat) :
    ∀ (fuel : Nat) (pending carry : List Transferable) (closing : Bool)
      (round : Nat) (st st' : QState),
      (∀ c ∈ st.apiCalls, c.Pairwise (fun a b => b.2 ≤ a.2)) →
      runRounds O maxRetries batchSize fuel pending carry closing round st = some st' →
      ∀ c ∈ st'.apiCalls, c.Pairwise (fun a b => b.2 ≤ a.2) := by
  intro fuel
  induction fuel with
  | zero =>
    intro pending carry closing round st st' _ h
    exact absurd h (by simp [runRounds])
  | succ fuel ih =>
    intro pending carry closing round st st' hs h
    rw [runRounds] at h
    set batch := (if closing then (carry, pending, true)
      else fillBatch batchSize carry pending).1 with hbatch
    have hnew : ∀ c ∈ st.apiCalls ++ [apiObjects (sortBySizeDesc batch)],
        c.Pairwise (fun a b => b.2 ≤ a.2) := by
      intro c hc
      rcases List.mem_append.mp hc with hc' | hc'
      · exact hs c hc'
      · rw [List.mem_singleton.mp hc']
        exact List.Pairwise.map _ (fun a b hab => hab) (sortBySizeDesc_sorted batch)
    cases henq : enqueueAndCollectRetriesFor O maxRetries round (sortBySizeDesc batch)
        { st with apiCalls := st.apiCalls ++ [apiObjects (sortBySizeDesc batch)] } with
    | none =>
      simp only [henq] at h
      exact Option.noConfusion h
    | some trip =>
      obtain ⟨next, st₂, errOpt⟩ := trip
      simp only [henq] at h
      obtain ⟨_, e2⟩ := enqueue_frames O maxRetries round (sortBySizeDesc batch)
        { st with apiCalls := st.apiCalls ++ [apiObjects (sortBySizeDesc batch)] }
        next st₂ errOpt henq
      have hs₂ : ∀ c ∈ st₂.apiCalls, c.Pairwise (fun a b => b.2 ≤ a.2) := by
        intro c hc
        rw [e2] at hc
        exact hnew c (by simpa using hc)
      obtain ⟨st₃, hM, m3⟩ :
          ∃ st₃, (match errOpt with
            | some e => { st₂ with errors := st₂.errors ++ [e] }
            | none => st₂) = st₃ ∧ st₃.apiCalls = st₂.apiCalls := by
        cases errOpt with
        | some e => exact ⟨_, rfl, rfl⟩
        | none => exact ⟨_, rfl, rfl⟩
      rw [hM] at h
      cases hbb : (if closing then (carry, pending, true)
          else fillBatch batchSize carry pending).2.2 && next.isEmpty with
      | true =>
        simp only [hbb, if_true] at h
        obtain rfl : st₃ = st' := by simpa using h
        intro c hc
        rw [m3] at hc
        exact hs₂ c hc
      | false =>
        simp only [hbb, if_false] at h
        exact ih _ _ _ _ st₃ st' (fun c hc => hs₂ c (m3 ▸ hc)) h

end Tq

/-- **C7.** For every batch dispatched by the batching loop, the request
sent to the negotiation call (recorded in `apiCalls` immediately before
`api.Batch` is invoked) lists its objects in descending order of declared
size. -/
theorem batches_sorted_descending (O : Tq.Oracles)
    (maxRetries batchSize fuel : Nat) (adds : List Tq.Transferable) (st : Tq.QState)
    (h : Tq.runQueue O maxRetries batchSize fuel adds = some st) :
    ∀ c ∈ st.apiCalls, c.Pairwise (fun a b => b.2 ≤ a.2) := by
  rw [Tq.runQueue] at h
  cases hrun : Tq.runRounds O maxRetries batchSize fuel
      (Tq.addAll Tq.initState adds).2 [] false 0 (Tq.addAll Tq.initState adds).1 with
  | none =>
    simp only [hrun] at h
    exact Option.noConfusion h
  | some stF =>
    simp only [hrun, Option.some.injEq] at h
    subst h
    intro c hc
    obtain ⟨_, _, _, _, a5, _⟩ := Tq.addAll_spec adds Tq.initState
    refine Tq.runRounds_apiCalls_sorted O maxRetries batchSize fuel
      (Tq.addAll Tq.initState adds).2 [] false 0
      (Tq.addAll Tq.initState adds).1 stF ?_ hrun c (by simpa using hc)
    rw [a5]
    simp [Tq.initState]

/-- Witness for `batches_sorted_descending`: two objects added in
ascending size order are negotiated as one batch sorted descending. -/
theorem batches_sorted_descending_witness :
    (Tq.runQueue okOracles 1 2 5 [⟨"b", 1, "b.dat"⟩, ⟨"a", 3, "a.dat"⟩]
        = some ((Tq.runQueue okOracles 1 2 5
            [⟨"b", 1, "b.dat"⟩, ⟨"a", 3, "a.dat"⟩]).getD Tq.initState))
    ∧ List.Pairwise (fun (a b : String × Int) => b.2 ≤ a.2)
        [(("a" : String), (3 : Int)), ("b", 1)] :=
  ⟨rfl, batches_sorted_descending okOracles 1 2 5
    [⟨"b", 1, "b.dat"⟩, ⟨"a", 3, "a.dat"⟩] _ rfl
    [(("a" : String), (3 : Int)), ("b", 1)] (by decide)⟩

/-- **C9 (code defect).** When a successful negotiation response carries an
action for the requested kind but an oid absent from the queue's
registered `transferables` map, the source runs `q.Skip(t.Size())` on the
nil `Transferable` interface obtained from the failed map lookup — a
nil-pointer panic (embedded as `none`) — instead of closing the object out
safely.  Evaluated at a concrete input: the registry holds only `"a"`,
and the response authorizes an action for `"b"`. -/
theorem negotiated_unknown_oid_panics :
    Tq.enqueueAndCollectRetriesFor
      ⟨fun _ _ => Tq.NegResult.ok [⟨"b", 5, none, true⟩],
        fun _ _ => none, fun _ => none⟩
      1 0 [⟨"a", 3, "a.dat"⟩]
      { Tq.initState with transferables := [("a", ⟨"a", 3, "a.dat"⟩)], waitCount := 1 }
      = none := rfl

namespace Tq

theorem rcCountFor_increment_self (rc : List (String × Nat)) (oid : String) :
    rcCountFor (rcIncrement rc oid) oid = rcCountFor rc oid + 1 := by
  simp [rcCountFor, rcIncrement, alookup_aupdate_self]

theorem rcCountFor_increment_ne (rc : List (String × Nat)) (oid k : String)
    (h : oid ≠ k) : rcCountFor (rcIncrement rc oid) k = rcCountFor rc k := by
  simp [rcCountFor, rcIncrement, alookup_aupdate_ne _ _ _ _ h]

theorem canRetryObject_increment_ne (mr : Nat) (rc : List (String × Nat))
    (oid k : String) (e : Err) (h : oid ≠ k) :
    canRetryObject mr (rcIncrement rc oid) k e = canRetryObject mr rc k e := by
  simp [canRetryObject, rcCanRetry, rcCountFor_increment_ne _ _ _ h]

/-- Exact characterisation of the whole-batch failure path: the next batch
is the sub-list of objects for which `canRetryObject` holds (budget left
AND the error classified retriable), those objects' counters are
incremented, and every other object is closed out as `Failed-Terminal`. -/
theorem negFailRequeue_filter (maxRetries : Nat) (e : Err) :
    ∀ (batch : List Transferable) (st : QState),
      (batch.map Transferable.oid).Nodup →
      (negFailRequeue maxRetries e batch st).1
          = batch.filter (fun t => canRetryObject maxRetries st.retryCount t.oid e)
      ∧ (negFailRequeue maxRetries e batch st).2.closed
          = st.closed ++ (batch.filter
              (fun t => !(canRetryObject maxRetries st.retryCount t.oid e))).map
              (fun t => (t.oid, Outcome.failedTerminal))
      ∧ (∀ k, k ∉ batch.map Transferable.oid →
          rcCountFor (negFailRequeue maxRetries e batch st).2.retryCount k
            = rcCountFor st.retryCount k)
      ∧ (∀ t ∈ batch, canRetryObject maxRetries st.retryCount t.oid e = true →
          rcCountFor (negFailRequeue maxRetries e batch st).2.retryCount t.oid
            = rcCountFor st.retryCount t.oid + 1) := by
  intro batch
  induction batch with
  | nil =>
    intro st _
    simp [negFailRequeue]
  | cons t rest ih =>
    intro st hnd
    rw [List.map_cons, List.nodup_cons] at hnd
    obtain ⟨hni, hnd'⟩ := hnd
    have hne : ∀ u ∈ rest, t.oid ≠ u.oid := by
      intro u hu hcontra
      exact hni (hcontra ▸ List.mem_map_of_mem Transferable.oid hu)
    rw [negFailRequeue]
    by_cases hcr : canRetryObject maxRetries st.retryCount t.oid e
    · simp only [hcr, if_true]
      cases hrec : negFailRequeue maxRetries e rest
          { st with retryCount := rcIncrement st.retryCount t.oid } with
      | mk ns' st₁ =>
        obtain ⟨i1, i2, i3, i4⟩ := ih
          { st with retryCount := rcIncrement st.retryCount t.oid } hnd'
        simp only [hrec] at i1 i2 i3 i4
        have hf1 : rest.filter
            (fun u => canRetryObject maxRetries (rcIncrement st.retryCount t.oid) u.oid e)
            = rest.filter (fun u => canRetryObject maxRetries st.retryCount u.oid e) := by
          apply List.filter_congr
          intro u hu
          rw [canRetryObject_increment_ne _ _ _ _ _ (hne u hu)]
        have hf2 : rest.filter
            (fun u => !canRetryObject maxRetries (rcIncrement st.retryCount t.oid) u.oid e)
            = rest.filter (fun u => !canRetryObject maxRetries st.retryCount u.oid e) := by
          apply List.filter_congr
          intro u hu
          rw [canRetryObject_increment_ne _ _ _ _ _ (hne u hu)]
        refine ⟨?_, ?_, ?_, ?_⟩
        · simp only [hrec, List.filter_cons, hcr]
          simp only [i1, hf1]
          simp
        · simp only [hrec, List.filter_cons, hcr]
          simp only [i2, hf2]
          simp
        · intro k hk
          rw [List.map_cons, List.mem_cons] at hk
          push_neg at hk
          simp only [hrec]
          exact (i3 k (fun hmem => hk.2 hmem)).trans
            (rcCountFor_increment_ne _ _ _ hk.1.symm)
        · intro u hu hcru
          rcases List.mem_cons.mp hu with rfl | hu'
          · simp only [hrec]
            refine (i3 u.oid ?_).trans (rcCountFor_increment_self _ _)
            intro hmem
            obtain ⟨v, hv, hvoid⟩ := List.mem_map.mp hmem
            exact hne v hv hvoid.symm
          · simp only [hrec]
            refine (i4 u hu' ?_).trans ?_
            · rw [canRetryObject_increment_ne _ _ _ _ _ (hne u hu')]
              exact hcru
            · rw [rcCountFor_increment_ne _ _ _ (hne u hu')]
    · have hcr' : canRetryObject maxRetries st.retryCount t.oid e = false := by
        simpa using hcr
      simp only [hcr', List.filter_cons, Bool.false_eq_true, if_false,
        Bool.not_false, eq_self_iff_true, if_true]
      obtain ⟨i1, i2, i3, i4⟩ := ih
        { st with closed := st.closed ++ [(t.oid, Outcome.failedTerminal)],
                  waitCount := st.waitCount - 1 } hnd'
      refine ⟨?_, ?_, ?_, ?_⟩
      · simpa using i1
      · rw [i2]
        simp [List.append_assoc]
      · intro k hk
        rw [List.map_cons, List.mem_cons] at hk
        push_neg at hk
        exact i3 k (fun hmem => hk.2 hmem)
      · intro u hu hcru
        rcases List.mem_cons.mp hu with rfl | hu'
        · exact absurd hcru (by simpa using hcr)
        · exact i4 u hu' hcru

end Tq

/-- **C6 (amended).** When the negotiation call for a batch fails as a
whole with error `e`, an object of the batch is requeued into the next
batch — with its retry counter incremented — iff it still has retry
budget AND `e` is classified retriable (`canRetryObject`); every other
object in the batch is closed out as `Failed-Terminal`.  In particular,
when `e` is not retriable no object is requeued, remaining budget or
not. -/
theorem negotiation_failure_requeue (O : Tq.Oracles) (maxRetries round : Nat)
    (batch : List Tq.Transferable) (st : Tq.QState) (e : Tq.Err)
    (hfail : O.neg round (Tq.apiObjects batch) = Tq.NegResult.fail e)
    (hnd : (batch.map Tq.Transferable.oid).Nodup) :
    ∃ st', Tq.enqueueAndCollectRetriesFor O maxRetries round batch st
        = some (batch.filter
            (fun t => Tq.canRetryObject maxRetries st.retryCount t.oid e), st', some e)
      ∧ st'.closed = st.closed ++ (batch.filter
          (fun t => !(Tq.canRetryObject maxRetries st.retryCount t.oid e))).map
          (fun t => (t.oid, Tq.Outcome.failedTerminal))
      ∧ (∀ t ∈ batch, Tq.canRetryObject maxRetries st.retryCount t.oid e = true →
          Tq.rcCountFor st'.retryCount t.oid
            = Tq.rcCountFor st.retryCount t.oid + 1) := by
  obtain ⟨f1, f2, _, f4⟩ := Tq.negFailRequeue_filter maxRetries e batch st hnd
  refine ⟨(Tq.negFailRequeue maxRetries e batch st).2, ?_, f2, f4⟩
  rw [Tq.enqueueAndCollectRetriesFor, hfail]
  simp only [← f1]

/-- **C6 counterexample.** The claim as stated — budget alone suffices for
requeueing — fails: with `max = 2`, an object with retry count `0 < 2`
whose batch negotiation fails with a NON-retriable error is not requeued
(the next batch is empty) and is closed out as `Failed-Terminal`. -/
theorem negotiation_failure_budget_not_requeued_cex :
    Tq.rcCountFor ([] : List (String × Nat)) "a" < 2
    ∧ ((Tq.enqueueAndCollectRetriesFor
          ⟨fun _ _ => Tq.NegResult.fail ⟨false, "auth"⟩,
            fun _ _ => none, fun _ => none⟩ 2 0 [⟨"a", 3, "a.dat"⟩]
          { Tq.initState with
              transferables := [("a", ⟨"a", 3, "a.dat"⟩)], waitCount := 1 }).map
        (fun r => (r.1, r.2.1.closed))
      = some ([], [("a", Tq.Outcome.failedTerminal)])) :=
  ⟨by decide, rfl⟩

/-- Witness for `negotiation_failure_requeue`: a retriable negotiation
failure over a batch of two objects, one with budget left (count 0) and
one exhausted (count 1 with `max = 1`): exactly the first is requeued. -/
theorem negotiation_failure_requeue_witness :
    ((⟨fun _ _ => Tq.NegResult.fail ⟨true, "503"⟩, fun _ _ => none,
        fun _ => none⟩ : Tq.Oracles).neg 0
      (Tq.apiObjects [⟨"a", 3, "a.dat"⟩, ⟨"b", 1, "b.dat"⟩])
        = Tq.NegResult.fail ⟨true, "503"⟩)
    ∧ (([⟨"a", 3, "a.dat"⟩, ⟨"b", 1, "b.dat"⟩].map Tq.Transferable.oid).Nodup)
    ∧ ∃ st', Tq.enqueueAndCollectRetriesFor
        ⟨fun _ _ => Tq.NegResult.fail ⟨true, "503"⟩, fun _ _ => none, fun _ => none⟩
        1 0 [⟨"a", 3, "a.dat"⟩, ⟨"b", 1, "b.dat"⟩]
        { Tq.initState with
            transferables := [("a", ⟨"a", 3, "a.dat"⟩), ("b", ⟨"b", 1, "b.dat"⟩)],
            retryCount := [("b", 1)], waitCount := 2 }
      = some ([⟨"a", 3, "a.dat"⟩, ⟨"b", 1, "b.dat"⟩].filter
          (fun t => Tq.canRetryObject 1 [("b", 1)] t.oid ⟨true, "503"⟩), st', some ⟨true, "503"⟩) :=
  ⟨rfl, by decide,
    ⟨(negotiation_failure_requeue
        ⟨fun _ _ => Tq.NegResult.fail ⟨true, "503"⟩, fun _ _ => none, fun _ => none⟩
        1 0 [⟨"a", 3, "a.dat"⟩, ⟨"b", 1, "b.dat"⟩]
        { Tq.initState with
            transferables := [("a", ⟨"a", 3, "a.dat"⟩), ("b", ⟨"b", 1, "b.dat"⟩)],
            retryCount := [("b", 1)], waitCount := 2 }
        ⟨true, "503"⟩ rfl (by decide)).choose,
      (negotiation_failure_requeue
        ⟨fun _ _ => Tq.NegResult.fail ⟨true, "503"⟩, fun _ _ => none, fun _ => none⟩
        1 0 [⟨"a", 3, "a.dat"⟩, ⟨"b", 1, "b.dat"⟩]
        { Tq.initState with
            transferables := [("a", ⟨"a", 3, "a.dat"⟩), ("b", ⟨"b", 1, "b.dat"⟩)],
            retryCount := [("b", 1)], waitCount := 2 }
        ⟨true, "503"⟩ rfl (by decide)).choose_spec.1⟩⟩

/-- Oracle for the always-failing-transfer scenario: negotiation
authorizes every object, every transfer attempt fails with the same
retriable (transient) error, `Begin` succeeds. -/
def alwaysFailOracles : Tq.Oracles :=
  { neg := fun _ req => Tq.NegResult.ok (req.map fun p => ⟨p.1, p.2, none, true⟩),
    xfer := fun _ _ => some ⟨true, "transient"⟩,
    beginErr := fun _ => none }

/-- The single object of the always-failing scenario. -/
def aObj : Tq.Transferable := ⟨"a", 4, "a.dat"⟩

theorem alwaysFail_enqueue_retry (mr round : Nat) (st : Tq.QState)
    (htm : st.transferables = [("a", aObj)])
    (hret : Tq.rcCountFor st.retryCount "a" < mr) :
    Tq.enqueueAndCollectRetriesFor alwaysFailOracles mr round [aObj] st
      = some ([aObj],
          { st with attemptLog := st.attemptLog ++ ["a"],
                    retryCount := Tq.rcIncrement st.retryCount "a",
                    adapterBegun := true }, none) := by
  obtain ⟨tm, rc, wc, errs, w, sk, cl, al, ac, ab, wcl⟩ := st
  simp only [] at htm hret
  subst htm
  cases ab with
  | false =>
    simp [Tq.enqueueAndCollectRetriesFor, alwaysFailOracles, Tq.apiObjects, aObj,
      Tq.processObjs, Tq.addToAdapter, Tq.ensureAdapterBegun, Tq.dispatch,
      Tq.collectRetries, alookup, Tq.canRetryObject, Tq.rcCanRetry, Tq.canRetry, hret]
  | true =>
    simp [Tq.enqueueAndCollectRetriesFor, alwaysFailOracles, Tq.apiObjects, aObj,
      Tq.processObjs, Tq.addToAdapter, Tq.ensureAdapterBegun, Tq.dispatch,
      Tq.collectRetries, alookup, Tq.canRetryObject, Tq.rcCanRetry, Tq.canRetry, hret]

theorem alwaysFail_enqueue_terminal (mr round : Nat) (st : Tq.QState)
    (htm : st.transferables = [("a", aObj)])
    (hbg : st.adapterBegun = true)
    (hret : ¬ Tq.rcCountFor st.retryCount "a" < mr) :
    Tq.enqueueAndCollectRetriesFor alwaysFailOracles mr round [aObj] st
      = some ([],
          { st with attemptLog := st.attemptLog ++ ["a"],
                    errors := st.errors ++ [⟨true, "transient"⟩],
                    closed := st.closed ++ [("a", Tq.Outcome.failedTerminal)],
                    waitCount := st.waitCount - 1 }, none) := by
  obtain ⟨tm, rc, wc, errs, w, sk, cl, al, ac, ab, wcl⟩ := st
  simp only [] at htm hbg hret
  subst htm hbg
  simp [Tq.enqueueAndCollectRetriesFor, alwaysFailOracles, Tq.apiObjects, aObj,
    Tq.processObjs, Tq.addToAdapter, Tq.ensureAdapterBegun, Tq.dispatch,
    Tq.collectRetries, alookup, Tq.canRetryObject, Tq.rcCanRetry, Tq.canRetry, hret]

theorem alwaysFail_rounds (mr : Nat) :
    ∀ (j round : Nat) (st : Tq.QState),
      st.transferables = [("a", aObj)] →
      st.adapterBegun = true →
      Tq.rcCountFor st.retryCount "a" = mr - j →
      j ≤ mr →
      ∃ st', Tq.runRounds alwaysFailOracles mr 2 (j + 1) [] [aObj] true round st
          = some st'
        ∧ st'.attemptLog = st.attemptLog ++ List.replicate (j + 1) "a"
        ∧ st'.errors = st.errors ++ [⟨true, "transient"⟩]
        ∧ st'.closed = st.closed ++ [("a", Tq.Outcome.failedTerminal)] := by
  intro j
  induction j with
  | zero =>
    intro round st htm hbg hcount _
    have hterm : ¬ Tq.rcCountFor
        ({ st with apiCalls := st.apiCalls ++ [Tq.apiObjects [aObj]] } :
          Tq.QState).retryCount "a" < mr := by
      show ¬ Tq.rcCountFor st.retryCount "a" < mr
      rw [hcount]
      omega
    have henq := alwaysFail_enqueue_terminal mr round
      { st with apiCalls := st.apiCalls ++ [Tq.apiObjects [aObj]] }
      (by simpa using htm) (by simpa using hbg) hterm
    have heval : Tq.runRounds alwaysFailOracles mr 2 (0 + 1) [] [aObj] true round st
        = some { st with
            apiCalls := st.apiCalls ++ [Tq.apiObjects [aObj]]
            attemptLog := st.attemptLog ++ ["a"]
            errors := st.errors ++ [⟨true, "transient"⟩]
            closed := st.closed ++ [("a", Tq.Outcome.failedTerminal)]
            waitCount := st.waitCount - 1 } := by
      rw [Tq.runRounds]
      simp [Tq.sortBySizeDesc, Tq.insertBySize, List.foldr_cons, List.foldr_nil, henq]
    exact ⟨_, heval, by simp, by simp, by simp⟩
  | succ j ih =>
    intro round st htm hbg hcount hj
    have hret : Tq.rcCountFor
        ({ st with apiCalls := st.apiCalls ++ [Tq.apiObjects [aObj]] } :
          Tq.QState).retryCount "a" < mr := by
      show Tq.rcCountFor st.retryCount "a" < mr
      rw [hcount]
      omega
    have henq := alwaysFail_enqueue_retry mr round
      { st with apiCalls := st.apiCalls ++ [Tq.apiObjects [aObj]] }
      (by simpa using htm) hret
    obtain ⟨st', hrun', ha', he', hc'⟩ := ih (round + 1)
      { st with apiCalls := st.apiCalls ++ [Tq.apiObjects [aObj]],
                attemptLog := st.attemptLog ++ ["a"],
                retryCount := Tq.rcIncrement st.retryCount "a",
                adapterBegun := true }
      (by simpa using htm) rfl
      (by
        show Tq.rcCountFor (Tq.rcIncrement st.retryCount "a") "a" = mr - j
        rw [Tq.rcCountFor_increment_self, hcount]
        omega)
      (by omega)
    refine ⟨st', ?_, ?_, ?_, ?_⟩
    · rw [Tq.runRounds]
      simp only [Tq.sortBySizeDesc, Tq.insertBySize, List.foldr_cons, List.foldr_nil,
        henq, if_true]
      simp only [List.isEmpty_cons, Bool.and_false, Bool.false_eq_true, if_false]
      exact hrun'
    · rw [ha']
      simp [List.replicate, List.append_assoc]
    · rw [he']
    · rw [hc']

/-- **C2 (amended).** With configured maximum `max = N ≥ 1`, an object
whose every transfer attempt fails with a retriable error is attempted
exactly `N + 1` times in total — the initial attempt plus `N` retries
(`CanRetry` compares the retry count, not the attempt count, against the
maximum) — and after the final attempt its error appears exactly once in
the queue's aggregate error list, and the object is closed out exactly
once as `Failed-Terminal`. -/
theorem retry_bound (mr : Nat) (hmr : 1 ≤ mr) :
    ∃ st, Tq.runQueue alwaysFailOracles mr 2 (mr + 1) [aObj] = some st
      ∧ st.attemptLog = List.replicate (mr + 1) "a"
      ∧ st.errors = [⟨true, "transient"⟩]
      ∧ st.closed = [("a", Tq.Outcome.failedTerminal)] := by
  have henq0 := alwaysFail_enqueue_retry mr 0
    { Tq.initState with
        transferables := [("a", aObj)]
        waitCount := 1
        apiCalls := [Tq.apiObjects [aObj]] }
    rfl
    (by
      show Tq.rcCountFor [] "a" < mr
      simp [Tq.rcCountFor, alookup]
      omega)
  obtain ⟨stF, hrun, ha, he, hc⟩ := alwaysFail_rounds mr (mr - 1) 1
    { Tq.initState with
        transferables := [("a", aObj)]
        waitCount := 1
        apiCalls := [Tq.apiObjects [aObj]]
        attemptLog := ["a"]
        retryCount := Tq.rcIncrement [] "a"
        adapterBegun := true }
    rfl rfl
    (by
      show Tq.rcCountFor (Tq.rcIncrement [] "a") "a" = mr - (mr - 1)
      rw [Tq.rcCountFor_increment_self]
      simp [Tq.rcCountFor, alookup]
      omega)
    (by omega)
  have hfuel : mr - 1 + 1 = mr := by omega
  rw [hfuel] at hrun
  have henq0' := henq0
  simp [Tq.initState, aObj, Tq.apiObjects] at henq0'
  have hrun0 : Tq.runRounds alwaysFailOracles mr 2 (mr + 1) [aObj] [] false 0
      { Tq.initState with transferables := [("a", aObj)], waitCount := 1 }
      = some stF := by
    rw [Tq.runRounds]
    simp [Tq.fillBatch, Tq.sortBySizeDesc, Tq.insertBySize, Tq.initState, aObj,
      Tq.apiObjects, henq0']
    exact hrun
  refine ⟨{ stF with watchersClosed := true }, ?_, ?_, ?_, ?_⟩
  · rw [Tq.runQueue]
    have haddAll : Tq.addAll Tq.initState [aObj]
        = ({ Tq.initState with transferables := [("a", aObj)], waitCount := 1 },
            [aObj]) := rfl
    simp only [haddAll, hrun0]
  · show stF.attemptLog = List.replicate (mr + 1) "a"
    rw [ha, hfuel]
    rw [show mr + 1 = 1 + mr by omega]
    rw [List.replicate_add]
    rfl
  · show stF.errors = [⟨true, "transient"⟩]
    rw [he]
    simp [Tq.initState]
  · show stF.closed = [("a", Tq.Outcome.failedTerminal)]
    rw [hc]
    simp [Tq.initState]

/-- **C2 counterexample.** The claim as stated — at most `N` attempts with
`max = N` — fails on the code: with `max = 2` the always-failing object is
attempted 3 times (a third attempt does occur after the second failure),
while its error still appears exactly once in the error list. -/
theorem retry_bound_cex :
    ((Tq.runQueue alwaysFailOracles 2 2 5 [aObj]).map
        (fun st => (st.attemptLog.length, st.errors.length))) = some (3, 1)
    ∧ ¬((3 : Nat) ≤ 2) :=
  ⟨rfl, by decide⟩

/-- Witness for `retry_bound` at `max = 2`. -/
theorem retry_bound_witness :
    (1 ≤ 2)
    ∧ ∃ st, Tq.runQueue alwaysFailOracles 2 2 (2 + 1) [aObj] = some st
      ∧ st.attemptLog = List.replicate (2 + 1) "a"
      ∧ st.errors = [⟨true, "transient"⟩]
      ∧ st.closed = [("a", Tq.Outcome.failedTerminal)] :=
  ⟨by decide, retry_bound 2 (by decide)⟩

namespace Tq

/-- With a transfer oracle that always succeeds, the adapter produces no
retries. -/
theorem dispatch_all_success (O : Oracles) (maxRetries round : Nat)
    (tm : List (String × Transferable))
    (hx : ∀ oid, O.xfer round oid = none) :
    ∀ (pend : List (Transferable × ObjRes)) (st : QState),
      ∃ st', dispatch O maxRetries round tm pend st = ([], st')
        ∧ st'.transferables = st.transferables
        ∧ st'.apiCalls = st.apiCalls := by
  intro pend
  induction pend with
  | nil => intro st; exact ⟨st, rfl, rfl, rfl⟩
  | cons p rest ih =>
    intro st
    obtain ⟨tp, o⟩ := p
    obtain ⟨st', hd, h1, h2⟩ := ih
      { st with attemptLog := st.attemptLog ++ [o.oid],
                watched := st.watched ++ [o.oid],
                closed := st.closed ++ [(o.oid, Outcome.succeeded)],
                waitCount := st.waitCount - 1 }
    refine ⟨st', ?_, by simpa using h1, by simpa using h2⟩
    rw [dispatch, hx o.oid]
    exact hd

/-- A successful negotiation response whose objects carry no error and
whose actions all resolve in the registry is processed without panic. -/
theorem processObjs_total (tm : List (String × Transferable)) :
    ∀ (objs : List ObjRes) (st : QState),
      (∀ o ∈ objs, o.err = none ∧ (o.hasAction = true → (alookup o.oid tm).isSome)) →
      ∃ ts st₁, processObjs tm objs st = some (ts, st₁) := by
  intro objs
  induction objs with
  | nil => intro st _; exact ⟨[], st, rfl⟩
  | cons o rest ih =>
    intro st hcond
    obtain ⟨he, hact⟩ := hcond o (List.mem_cons_self _ _)
    have hrest := fun o' ho' => hcond o' (List.mem_cons_of_mem _ ho')
    rw [processObjs, he]
    cases hoact : o.hasAction with
    | false =>
      obtain ⟨ts, st₁, hrec⟩ := ih
        { st with skippedBytes := st.skippedBytes ++ [o.size],
                  closed := st.closed ++ [(o.oid, Outcome.skipped)],
                  waitCount := st.waitCount - 1 } hrest
      exact ⟨ts, st₁, by simp [hoact, hrec]⟩
    | true =>
      obtain ⟨t, hlk⟩ := Option.isSome_iff_exists.mp (hact hoact)
      obtain ⟨ts, st₁, hrec⟩ := ih st hrest
      exact ⟨(t, o) :: ts, st₁, by simp [hoact, hlk, hrec]⟩

/-- One full clean round: negotiation succeeds and covers the request,
objects carry no per-object error, all transfers succeed, `Begin`
succeeds.  The round produces no retries. -/
theorem enqueue_clean (O : Oracles) (maxRetries round : Nat)
    (resp : Nat → (String × Int) → ObjRes)
    (hneg : ∀ n req, O.neg n req = NegResult.ok (req.map (resp n)))
    (hoid : ∀ n p, (resp n p).oid = p.1)
    (herr : ∀ n p, (resp n p).err = none)
    (hx : ∀ n oid, O.xfer n oid = none)
    (hb : ∀ n, O.beginErr n = none)
    (batch : List Transferable) (st : QState)
    (hlk : ∀ t ∈ batch, (alookup t.oid st.transferables).isSome) :
    ∃ st', enqueueAndCollectRetriesFor O maxRetries round batch st
        = some ([], st', none)
      ∧ st'.transferables = st.transferables
      ∧ st'.apiCalls = st.apiCalls := by
  obtain ⟨ts, st₁, hpo⟩ := processObjs_total st.transferables
    ((apiObjects batch).map (resp round)) st
    (by
      intro o ho
      obtain ⟨p, hp, rfl⟩ := List.mem_map.mp ho
      refine ⟨herr _ _, fun _ => ?_⟩
      rw [hoid]
      obtain ⟨t, ht, rfl⟩ := List.mem_map.mp hp
      exact hlk t ht)
  obtain ⟨p1, _, p3, _⟩ := processObjs_spec _ _ _ _ _ hpo
  obtain ⟨stE, hens, hE1, hE3⟩ :
      ∃ stE, ensureAdapterBegun O round st₁ = (stE, none)
        ∧ stE.transferables = st₁.transferables ∧ stE.apiCalls = st₁.apiCalls := by
    rw [ensureAdapterBegun]
    by_cases hb' : st₁.adapterBegun
    · exact ⟨st₁, by simp [hb'], rfl, rfl⟩
    · refine ⟨{ st₁ with adapterBegun := true }, ?_, rfl, rfl⟩
      simp [hb', hb round]
  obtain ⟨st₂, hdisp, hD1, hD3⟩ :=
    dispatch_all_success O maxRetries round stE.transferables (hx round) ts stE
  refine ⟨st₂, ?_, by rw [hD1, hE1, p1], by rw [hD3, hE3, p3]⟩
  rw [enqueueAndCollectRetriesFor, hneg]
  simp only [hpo, addToAdapter, hens, hdisp, collectRetries]

end Tq

namespace Tq

/-- Number of negotiation requests that reach the endpoint: the batch
client (`tqClient.Batch`) returns early on an empty request list without
issuing a network call, so only non-empty `api.Batch` calls count. -/
def nonEmptyCalls (st : QState) : Nat :=
  (st.apiCalls.filter (fun c => !c.isEmpty)).length

theorem nonEmptyCalls_append_one (st : QState) (c : List (String × Int))
    (st' : QState) (h : st'.apiCalls = st.apiCalls ++ [c]) :
    nonEmptyCalls st' = nonEmptyCalls st + (if c.isEmpty then 0 else 1) := by
  rw [nonEmptyCalls, nonEmptyCalls, h, List.filter_append, List.length_append]
  cases hc : c.isEmpty <;> simp [hc]

theorem ceil_div_zero (B : Nat) (hB : 1 ≤ B) : (0 + B - 1) / B = 0 :=
  Nat.div_eq_of_lt (by omega)

theorem ceil_div_lt (B L : Nat) (hB : 1 ≤ B) (h1 : 1 ≤ L) (h2 : L < B) :
    (L + B - 1) / B = 1 := by
  have heq : L + B - 1 = (L - 1) + B := by omega
  rw [heq, Nat.add_div_right _ hB]
  have h0 : (L - 1) / B = 0 := Nat.div_eq_of_lt (by omega)
  omega

theorem ceil_div_ge (B L : Nat) (hB : 1 ≤ B) (h : B ≤ L) :
    (L + B - 1) / B = ((L - B) + B - 1) / B + 1 := by
  have heq : L + B - 1 = ((L - B) + B - 1) + B := by omega
  rw [heq, Nat.add_div_right _ hB]

theorem alookup_pairs_isSome (ts : List Transferable) (t : Transferable) (ht : t ∈ ts) :
    (alookup t.oid (ts.map fun u => (u.oid, u))).isSome := by
  induction ts with
  | nil => cases ht
  | cons u rest ih =>
    rw [List.map_cons, alookup]
    by_cases hk : u.oid = t.oid
    · simp [hk]
    · rcases List.mem_cons.mp ht with rfl | ht'
      · exact absurd rfl hk
      · simp [hk, ih ht']

theorem addAll_nodup_eq :
    ∀ (ts : List Transferable) (st : QState),
      (∀ t ∈ ts, alookup t.oid st.transferables = none) →
      ((ts.map Transferable.oid).Nodup) →
      (addAll st ts).2 = ts := by
  intro ts
  induction ts with
  | nil => intro st _ _; rfl
  | cons t rest ih =>
    intro st hnone hnd
    rw [List.map_cons, List.nodup_cons] at hnd
    obtain ⟨hni, hnd'⟩ := hnd
    rw [addAll, addOne, hnone t (List.mem_cons_self _ _)]
    cases hrec : addAll
        { st with transferables := st.transferables ++ [(t.oid, t)],
                  waitCount := st.waitCount + 1 } rest with
    | mk st₁ inc =>
      have : inc = rest := by
        have := ih { st with transferables := st.transferables ++ [(t.oid, t)],
                             waitCount := st.waitCount + 1 }
          (by
            intro u hu
            show alookup u.oid (st.transferables ++ [(t.oid, t)]) = none
            refine (alookup_append_eq_none _ _ _).mpr
              ⟨hnone u (List.mem_cons_of_mem _ hu), ?_⟩
            have hne : t.oid ≠ u.oid := by
              intro hcontra
              exact hni (hcontra ▸ List.mem_map_of_mem Transferable.oid hu)
            simp [alookup, hne])
          hnd'
        rw [hrec] at this
        exact this
      simp [hrec, this]

end Tq

namespace Tq

theorem runRounds_clean_count (O : Oracles) (maxRetries batchSize : Nat)
    (resp : Nat → (String × Int) → ObjRes)
    (hneg : ∀ n req, O.neg n req = NegResult.ok (req.map (resp n)))
    (hoid : ∀ n p, (resp n p).oid = p.1)
    (herr : ∀ n p, (resp n p).err = none)
    (hx : ∀ n oid, O.xfer n oid = none)
    (hb : ∀ n, O.beginErr n = none)
    (hbs : 1 ≤ batchSize) :
    ∀ (fuel : Nat) (pending : List Transferable) (round : Nat) (st st' : QState),
      (∀ t ∈ pending, (alookup t.oid st.transferables).isSome) →
      runRounds O maxRetries batchSize fuel pending [] false round st = some st' →
      nonEmptyCalls st'
          = nonEmptyCalls st + (pending.length + batchSize - 1) / batchSize
      ∧ (∀ c ∈ st'.apiCalls, c ∈ st.apiCalls ∨ c.length ≤ batchSize) := by
  intro fuel
  induction fuel with
  | zero =>
    intro pending round st st' _ h
    exact absurd h (by simp [runRounds])
  | succ fuel ih =>
    intro pending round st st' hlk h
    rw [runRounds] at h
    by_cases hlen : pending.length < batchSize
    · -- final (or empty) round: the whole of `pending` fits in one batch
      have hfb : fillBatch batchSize ([] : List Transferable) pending
          = (pending, [], true) := by
        simp [fillBatch]
        omega
      simp only [Bool.false_eq_true, if_false, hfb] at h
      obtain ⟨ST, henq, hT1, hT3⟩ := enqueue_clean O maxRetries round resp hneg hoid
        herr hx hb (sortBySizeDesc pending)
        { st with apiCalls := st.apiCalls ++ [apiObjects (sortBySizeDesc pending)] }
        (by
          intro t ht
          show (alookup t.oid st.transferables).isSome
          exact hlk t ((sortBySizeDesc_perm pending).mem_iff.mp ht))
      simp only [henq, List.isEmpty_nil, Bool.and_true, if_true] at h
      obtain rfl : ST = st' := by simpa using h
      have hsortlen : (sortBySizeDesc pending).length = pending.length :=
        (sortBySizeDesc_perm pending).length_eq
      have hT3' : ST.apiCalls
          = st.apiCalls ++ [apiObjects (sortBySizeDesc pending)] := by
        rw [hT3]
      have hcount := nonEmptyCalls_append_one st _ ST hT3'
      constructor
      · rw [hcount]
        by_cases hp : pending = []
        · subst hp
          simp [apiObjects, sortBySizeDesc, ceil_div_zero batchSize hbs]
          exact Nat.div_eq_of_lt (by omega)
        · have h1 : 1 ≤ pending.length := by
            cases pending
            · exact absurd rfl hp
            · simp
          have hne : (apiObjects (sortBySizeDesc pending)).isEmpty = false := by
            have hlen2 : (apiObjects (sortBySizeDesc pending)).length
                = pending.length := by
              rw [apiObjects, List.length_map, hsortlen]
            cases hE : (apiObjects (sortBySizeDesc pending)).isEmpty
            · rfl
            · rw [List.isEmpty_iff] at hE
              rw [hE] at hlen2
              simp at hlen2
              omega
          rw [hne]
          rw [ceil_div_lt batchSize pending.length hbs h1 hlen]
          simp
      · intro c hc
        rw [hT3'] at hc
        rcases List.mem_append.mp hc with hc' | hc'
        · exact Or.inl hc'
        · right
          rw [List.mem_singleton.mp hc']
          rw [apiObjects, List.length_map, hsortlen]
          omega
    · -- a full batch of `batchSize` objects, then recurse on the rest
      have hfb : fillBatch batchSize ([] : List Transferable) pending
          = (pending.take batchSize, pending.drop batchSize, false) := by
        simp [fillBatch]
        omega
      simp only [Bool.false_eq_true, if_false, hfb] at h
      obtain ⟨ST, henq, hT1, hT3⟩ := enqueue_clean O maxRetries round resp hneg hoid
        herr hx hb (sortBySizeDesc (pending.take batchSize))
        { st with apiCalls := st.apiCalls
            ++ [apiObjects (sortBySizeDesc (pending.take batchSize))] }
        (by
          intro t ht
          show (alookup t.oid st.transferables).isSome
          exact hlk t (List.take_subset _ _
            ((sortBySizeDesc_perm _).mem_iff.mp ht)))
      simp only [henq, List.isEmpty_nil, Bool.and_true, Bool.false_eq_true, if_false] at h
      obtain ⟨hcount', hlen'⟩ := ih (pending.drop batchSize) (round + 1) ST st'
        (by
          intro t ht
          have : ST.transferables = st.transferables := by rw [hT1]
          rw [this]
          exact hlk t (List.drop_subset _ _ ht))
        h
      have htakelen : (pending.take batchSize).length = batchSize := by
        rw [List.length_take]
        omega
      have hsortlen : (sortBySizeDesc (pending.take batchSize)).length = batchSize := by
        rw [(sortBySizeDesc_perm _).length_eq, htakelen]
      have hT3' : ST.apiCalls = st.apiCalls
          ++ [apiObjects (sortBySizeDesc (pending.take batchSize))] := by
        rw [hT3]
      have hcount := nonEmptyCalls_append_one st _ ST hT3'
      have hne : (apiObjects (sortBySizeDesc (pending.take batchSize))).isEmpty
          = false := by
        have hlen2 : (apiObjects (sortBySizeDesc (pending.take batchSize))).length
            = batchSize := by
          rw [apiObjects, List.length_map, hsortlen]
        cases hE : (apiObjects (sortBySizeDesc (pending.take batchSize))).isEmpty
        · rfl
        · rw [List.isEmpty_iff] at hE
          rw [hE] at hlen2
          simp at hlen2
          omega
      constructor
      · rw [hcount', hcount, hne]
        simp only [Bool.false_eq_true, if_false, List.length_drop]
        rw [ceil_div_ge batchSize pending.length hbs (by omega)]
        omega
      · intro c hc
        rcases hlen' c hc with hc' | hc'
        · rw [hT3'] at hc'
          rcases List.mem_append.mp hc' with hc'' | hc''
          · exact Or.inl hc''
          · right
            rw [List.mem_singleton.mp hc'']
            rw [apiObjects, List.length_map, hsortlen]
        · exact Or.inr hc'

end Tq

/-- **C8.** With batch size `B ≥ 1` and `M > B` distinct candidate objects
added to a queue whose run sees no failures (negotiation covers each
request per-object with no errors, every transfer succeeds, `Begin`
succeeds), the batch negotiation endpoint is invoked exactly `⌈M/B⌉`
times — an empty request list is not sent, per the batch client's early
return — and every recorded `api.Batch` request carries at most `B`
objects. -/
theorem batch_boundary (O : Tq.Oracles) (maxRetries batchSize fuel : Nat)
    (resp : Nat → (String × Int) → Tq.ObjRes)
    (hneg : ∀ n req, O.neg n req = Tq.NegResult.ok (req.map (resp n)))
    (hoid : ∀ n p, (resp n p).oid = p.1)
    (herr : ∀ n p, (resp n p).err = none)
    (hx : ∀ n oid, O.xfer n oid = none)
    (hb : ∀ n, O.beginErr n = none)
    (hbs : 1 ≤ batchSize)
    (adds : List Tq.Transferable) (st : Tq.QState)
    (hM : batchSize < adds.length)
    (hnd : (adds.map Tq.Transferable.oid).Nodup)
    (h : Tq.runQueue O maxRetries batchSize fuel adds = some st) :
    Tq.nonEmptyCalls st = (adds.length + batchSize - 1) / batchSize
    ∧ ∀ c ∈ st.apiCalls, c.length ≤ batchSize := by
  rw [Tq.runQueue] at h
  have hinc : (Tq.addAll Tq.initState adds).2 = adds :=
    Tq.addAll_nodup_eq adds Tq.initState (fun t _ => rfl) hnd
  cases hrun : Tq.runRounds O maxRetries batchSize fuel
      (Tq.addAll Tq.initState adds).2 [] false 0 (Tq.addAll Tq.initState adds).1 with
  | none =>
    simp only [hrun] at h
    exact Option.noConfusion h
  | some stF =>
    simp only [hrun, Option.some.injEq] at h
    subst h
    rw [hinc] at hrun
    have hlk : ∀ t ∈ adds,
        (alookup t.oid (Tq.addAll Tq.initState adds).1.transferables).isSome := by
      intro t ht
      obtain ⟨a1, _⟩ := Tq.addAll_spec adds Tq.initState
      rw [a1, hinc]
      simpa [Tq.initState] using Tq.alookup_pairs_isSome adds t ht
    obtain ⟨hcount, hlen⟩ := Tq.runRounds_clean_count O maxRetries batchSize resp
      hneg hoid herr hx hb hbs fuel adds 0
      (Tq.addAll Tq.initState adds).1 stF hlk hrun
    constructor
    · show Tq.nonEmptyCalls { stF with watchersClosed := true } = _
      have heq : Tq.nonEmptyCalls { stF with watchersClosed := true }
          = Tq.nonEmptyCalls stF := rfl
      rw [heq, hcount]
      have h0 : Tq.nonEmptyCalls (Tq.addAll Tq.initState adds).1 = 0 := by
        obtain ⟨_, _, _, _, a5, _⟩ := Tq.addAll_spec adds Tq.initState
        rw [Tq.nonEmptyCalls, a5]
        simp [Tq.initState]
      rw [h0]
      omega
    · intro c hc
      have hc' : c ∈ stF.apiCalls := by simpa using hc
      rcases hlen c hc' with hc'' | hc''
      · obtain ⟨_, _, _, _, a5, _⟩ := Tq.addAll_spec adds Tq.initState
        rw [a5] at hc''
        simp [Tq.initState] at hc''
      · exact hc''

/-- Witness for `batch_boundary`: `B = 1`, `M = 2` distinct objects under
the clean oracle; the endpoint is invoked `⌈2/1⌉ = 2` times. -/
theorem batch_boundary_witness :
    (Tq.runQueue okOracles 1 1 5 [⟨"a", 3, "a.dat"⟩, ⟨"b", 1, "b.dat"⟩]
        = some ((Tq.runQueue okOracles 1 1 5
            [⟨"a", 3, "a.dat"⟩, ⟨"b", 1, "b.dat"⟩]).getD Tq.initState))
    ∧ Tq.nonEmptyCalls ((Tq.runQueue okOracles 1 1 5
        [⟨"a", 3, "a.dat"⟩, ⟨"b", 1, "b.dat"⟩]).getD Tq.initState)
      = (2 + 1 - 1) / 1 :=
  ⟨rfl, by
    have hres := (batch_boundary okOracles 1 1 5
      (fun _ p => ⟨p.1, p.2, none, false⟩)
      (fun _ _ => rfl) (fun _ _ => rfl) (fun _ _ => rfl) (fun _ _ => rfl)
      (fun _ => rfl) (by decide) [⟨"a", 3, "a.dat"⟩, ⟨"b", 1, "b.dat"⟩] _
      (by decide) (by decide) rfl).1
    simpa using hres⟩
